import Mathlib

/-!
# Verification of the MindTube AI service core (`AI-Service/main.py`)

Shallow embedding of the transcript-extraction / normalization / analysis
pipeline of `main.py`.  Python strings are modelled as `String` / `List Char`;
Python `re.sub` calls are modelled by dedicated scanning functions that
reproduce the leftmost, non-overlapping match-and-delete semantics of the
concrete patterns appearing in the source.  External libraries (spaCy, the
Groq client, the transcript/YouTube APIs) are passed in as oracle parameters,
since the source treats them as black boxes.  A function that can raise a
Python exception is modelled with `Option`/`Except`, `none`/`.error`
standing for the raised exception.

Modelling conventions (uniform, documented once):
* `\s`, `str.strip()` and `str.split()` whitespace is modelled by
  `Char.isWhitespace` (space, tab, CR, LF);
* `str.lower()` and `re.IGNORECASE` are modelled code-point-wise by
  `Char.toLower`;
* `\w` (for `\b` word boundaries) is modelled by ASCII alphanumerics,
  underscore, and all non-ASCII code points.
-/

namespace MindTube

/-- Python `\s` / `str.strip` whitespace class (modelled by `Char.isWhitespace`). -/
def isWs (c : Char) : Bool := c.isWhitespace

/-- Python `\w` word character, for `\b` word boundaries: ASCII
alphanumerics, underscore, and (approximating Python's Unicode word class)
every non-ASCII code point. -/
def isWordChar (c : Char) : Bool := c.isAlphanum || c == '_' || 128 ≤ c.toNat

/-- Code-point-wise model of `str.lower()` / `re.IGNORECASE` folding. -/
def lowerC (c : Char) : Char := c.toLower

/-- Length of the maximal digit run at the head of `l` (greedy `\d+`). -/
def takeDigitsLen (l : List Char) : Nat := (l.takeWhile Char.isDigit).length

/-!
## Generic `re.sub(pattern, '', text)` scanner

`genSub m fuel prev l` scans `l` left to right.  At each position it calls
the matcher `m` with the previous character of the original string (`none` at
the string start) and the remaining input; `m` returns the length of the
pattern match starting exactly there, or `none`.  A match is deleted and the
scan resumes immediately after it (non-overlapping matches, as `re.sub`);
otherwise one character is copied.  All matchers below return lengths `≥ 1`.
`fuel` only forces structural recursion; callers pass `l.length`, which is
sufficient because every step consumes at least one character.
-/
def genSub (m : Option Char → List Char → Option Nat) :
    Nat → Option Char → List Char → List Char
  | 0, _, l => l
  | _ + 1, _, [] => []
  | fuel + 1, prev, c :: rest =>
    match m prev (c :: rest) with
    | some k => genSub m fuel (some (((c :: rest).drop (k - 1)).headD c)) (rest.drop (k - 1))
    | none => c :: genSub m fuel (some c) rest

/-- Run one `re.sub(pat, '', ·)` pass over a whole string. -/
def subAll (m : Option Char → List Char → Option Nat) (l : List Char) : List Char :=
  genSub m l.length none l

/-! ### Matchers for the concrete patterns of `clean_transcript` (main.py:301-316) -/

/-- Matcher for `\[\d+:\d+:\d+\]` (bracketed timestamps, main.py:301). -/
def mTsBr (_ : Option Char) (l : List Char) : Option Nat :=
  match l with
  | '[' :: r =>
    let d1 := takeDigitsLen r
    if d1 = 0 then none else
    match r.drop d1 with
    | ':' :: r2 =>
      let d2 := takeDigitsLen r2
      if d2 = 0 then none else
      match r2.drop d2 with
      | ':' :: r3 =>
        let d3 := takeDigitsLen r3
        if d3 = 0 then none else
        match r3.drop d3 with
        | ']' :: _ => some (d1 + d2 + d3 + 4)
        | _ => none
      | _ => none
    | _ => none
  | _ => none

/-- Matcher for `\d+:\d+:\d+` (main.py:302).  `\d+` is greedy and the runs
are followed by `:`, which is not a digit, so no backtracking can occur. -/
def mTs3 (_ : Option Char) (l : List Char) : Option Nat :=
  let d1 := takeDigitsLen l
  if d1 = 0 then none else
  match l.drop d1 with
  | ':' :: r2 =>
    let d2 := takeDigitsLen r2
    if d2 = 0 then none else
    match r2.drop d2 with
    | ':' :: r3 =>
      let d3 := takeDigitsLen r3
      if d3 = 0 then none else some (d1 + d2 + d3 + 2)
    | _ => none
  | _ => none

/-- Matcher for `\d+:\d+` (main.py:303). -/
def mTs2 (_ : Option Char) (l : List Char) : Option Nat :=
  let d1 := takeDigitsLen l
  if d1 = 0 then none else
  match l.drop d1 with
  | ':' :: r2 =>
    let d2 := takeDigitsLen r2
    if d2 = 0 then none else some (d1 + d2 + 1)
  | _ => none

/-- Matcher for `^[A-Z\s]+:` with `re.MULTILINE` (speaker labels,
main.py:306).  `^` matches at the string start (`prev = none`) or right
after a newline; the class excludes `:`, so the greedy run needs no
backtracking. -/
def mSpeak (prev : Option Char) (l : List Char) : Option Nat :=
  if prev = none ∨ prev = some '\n' then
    let k := (l.takeWhile (fun c => c.isUpper || isWs c)).length
    if k = 0 then none else
    match l.drop k with
    | ':' :: _ => some (k + 1)
    | _ => none
  else none

/-- Distance to the first `]` (inclusive), failing on a newline or the end
of input: the lazy body `.*?` of `\[.*?\]` cannot cross `\n`. -/
def findRB : List Char → Option Nat
  | [] => none
  | ']' :: _ => some 1
  | '\n' :: _ => none
  | _ :: r => (findRB r).map (· + 1)

/-- Matcher for `\[.*?\]` (bracketed annotations, main.py:307). -/
def mBrkt (_ : Option Char) (l : List Char) : Option Nat :=
  match l with
  | '[' :: r => (findRB r).map (· + 1)
  | _ => none

/-- `\b` before the match: previous character absent or not a word character. -/
def boundaryBefore : Option Char → Bool
  | none => true
  | some c => !isWordChar c

/-- `\b` after the match: next character absent or not a word character. -/
def boundaryAfter : List Char → Bool
  | [] => true
  | c :: _ => !isWordChar c

/-- Matcher for `\b(um+|uh+|er+|ah+)\b` with `re.IGNORECASE` (main.py:311).
The trailing `\b` fails for every shorter greedy run as well (the next
character is then a word character), so the whole alternative fails without
residual backtracking. -/
def mFill1 (prev : Option Char) (l : List Char) : Option Nat :=
  if boundaryBefore prev then
    match l with
    | c :: r =>
      let c0 := lowerC c
      if c0 = 'u' then
        let km := (r.takeWhile (fun d => lowerC d = 'm')).length
        if 1 ≤ km ∧ boundaryAfter (r.drop km) then some (km + 1)
        else
          let kh := (r.takeWhile (fun d => lowerC d = 'h')).length
          if 1 ≤ kh ∧ boundaryAfter (r.drop kh) then some (kh + 1) else none
      else if c0 = 'e' then
        let kr := (r.takeWhile (fun d => lowerC d = 'r')).length
        if 1 ≤ kr ∧ boundaryAfter (r.drop kr) then some (kr + 1) else none
      else if c0 = 'a' then
        let kh := (r.takeWhile (fun d => lowerC d = 'h')).length
        if 1 ≤ kh ∧ boundaryAfter (r.drop kh) then some (kh + 1) else none
      else none
    | [] => none
  else none

/-- Case-insensitive literal match of `pat` at the head of `l`; returns the
rest of the input on success. -/
def matchCI : List Char → List Char → Option (List Char)
  | [], l => some l
  | _ :: _, [] => none
  | p :: ps, c :: cs => if lowerC c = p then matchCI ps cs else none

/-- Try a regex alternation of literal words (in order) at one position,
requiring the trailing `\b`. -/
def tryWords (ws : List (List Char)) (l : List Char) : Option Nat :=
  match ws with
  | [] => none
  | w :: rest =>
    match matchCI w l with
    | some rem => if boundaryAfter rem then some w.length else tryWords rest l
    | none => tryWords rest l

/-- The word alternatives of `\b(like|you know|i mean|basically|actually|literally)\b`. -/
def fillerWords2 : List (List Char) :=
  ["like".data, "you know".data, "i mean".data, "basically".data,
   "actually".data, "literally".data]

/-- The word alternatives of `\b(sort of|kind of)\b`. -/
def fillerWords3 : List (List Char) := ["sort of".data, "kind of".data]

/-- Matcher for `\b(like|you know|i mean|basically|actually|literally)\b`
with `re.IGNORECASE` (main.py:312). -/
def mFill2 (prev : Option Char) (l : List Char) : Option Nat :=
  if boundaryBefore prev then tryWords fillerWords2 l else none

/-- Matcher for `\b(sort of|kind of)\b` with `re.IGNORECASE` (main.py:313). -/
def mFill3 (prev : Option Char) (l : List Char) : Option Nat :=
  if boundaryBefore prev then tryWords fillerWords3 l else none

/-! ### Steps 1-5 of `clean_transcript` (main.py:300-332) -/

/-- Steps 1-3 of `clean_transcript`: the eight `re.sub(pattern, '', text)`
passes of main.py:301-316, in source order. -/
def step123 (l : List Char) : List Char :=
  subAll mFill3 (subAll mFill2 (subAll mFill1 (subAll mBrkt (subAll mSpeak
    (subAll mTs2 (subAll mTs3 (subAll mTsBr l)))))))

/-- Python `text.split('.')` (keeps empty parts, never returns `[]`). -/
def splitDot : List Char → List (List Char)
  | [] => [[]]
  | c :: r =>
    if c = '.' then [] :: splitDot r
    else
      match splitDot r with
      | [] => [[c]]
      | p :: ps => (c :: p) :: ps

/-- Python `str.strip()` on the right. -/
def pyStripRight (l : List Char) : List Char := (l.reverse.dropWhile isWs).reverse

/-- Python `str.strip()`: drop leading and trailing whitespace. -/
def pyStrip (l : List Char) : List Char := pyStripRight (l.dropWhile isWs)

/-- Python `str.lower()`, code-point-wise. -/
def toLowerL (l : List Char) : List Char := l.map lowerC

/-- The sentence-deduplication loop of step 4 (main.py:319-326): keep a
sentence iff its stripped lowercase form is nonempty, unseen, and longer
than 10 characters; kept sentences are appended stripped. -/
def dedupKeep (seen : List (List Char)) : List (List Char) → List (List Char)
  | [] => []
  | s :: rest =>
    let sc := toLowerL (pyStrip s)
    if sc ≠ [] ∧ sc ∉ seen ∧ 10 < sc.length then
      pyStrip s :: dedupKeep (sc :: seen) rest
    else dedupKeep seen rest

/-- Python `'. '.join(·)`. -/
def joinDS : List (List Char) → List Char
  | [] => []
  | [s] => s
  | s :: rest => s ++ '.' :: ' ' :: joinDS rest

/-- Step 4 of `clean_transcript` (main.py:318-327). -/
def step4 (l : List Char) : List Char := joinDS (dedupKeep [] (splitDot l))

/-- One `re.sub(run-pattern, single, text)` collapse pass: each maximal run
of characters satisfying `p` becomes the single character `rep`.  `fuel`
forces structural recursion; callers pass `l.length`. -/
def collapseRun (p : Char → Bool) (rep : Char) : Nat → List Char → List Char
  | 0, l => l
  | _ + 1, [] => []
  | fuel + 1, c :: r =>
    if p c then rep :: collapseRun p rep fuel (r.dropWhile p)
    else c :: collapseRun p rep fuel r

/-- Run a collapse pass over a whole string. -/
def collapseAll (p : Char → Bool) (rep : Char) (l : List Char) : List Char :=
  collapseRun p rep l.length l

/-- Step 5 of `clean_transcript` (main.py:330-332): collapse whitespace
runs to a space, period runs to a period, comma runs to a comma. -/
def step5 (l : List Char) : List Char :=
  collapseAll (fun c => c == ',') ','
    (collapseAll (fun c => c == '.') '.'
      (collapseAll isWs ' ' l))

/-- `clean_transcript` up to the end of step 5 (the value of `text` at
main.py:332, before the optional spaCy pass). -/
def cleanSteps15 (l : List Char) : List Char := step5 (step4 (step123 l))

/-- `NLPPreprocessor.clean_transcript` (main.py:281-358).  The spaCy block
(main.py:336-353) is a third-party black box: it is passed in as an oracle
receiving `text[:100000]`; `none` models any exception inside the `try`
block, in which case the step-5 `text` is kept.  The final reduction-ratio
log line (main.py:356) computes `len(text)/len(raw_transcript)`, which
raises `ZeroDivisionError` when the input is empty: `none` models that
exception, `some` the returned cleaned string. -/
def clean_transcript (spacy : String → Option String) (raw : String) : Option String :=
  let t5 : String := ⟨cleanSteps15 raw.data⟩
  let t6 : String :=
    match spacy ⟨t5.data.take 100000⟩ with
    | some r => r
    | none => t5
  if raw.data = [] then none else some ⟨pyStrip t6.data⟩

/-- The deterministic part of the normalizer: steps 1-5 plus the final
`strip`, i.e. the value returned when the optional spaCy pass is skipped. -/
def cleanPure (l : List Char) : List Char := pyStrip (cleanSteps15 l)

/-! ## `TranscriptExtractor.extract_video_id` (main.py:66-91) -/

/-- Characters of the regex class `[a-zA-Z0-9_-]` (video-id characters). -/
def isIdChar (c : Char) : Bool := c.isAlphanum || c == '_' || c == '-'

/-- Case-sensitive literal match of `pat` at the head of `l`; returns the
rest of the input on success. -/
def matchLit : List Char → List Char → Option (List Char)
  | [], l => some l
  | _ :: _, [] => none
  | p :: ps, c :: cs => if c = p then matchLit ps cs else none

/-- `([a-zA-Z0-9_-]{11})`: exactly the next 11 characters, all id characters. -/
def grab11 (l : List Char) : Option (List Char) :=
  let pre := l.take 11
  if pre.length = 11 ∧ pre.all isIdChar then some pre else none

/-- Try the literal alternatives of one pattern, in order, at one position;
an alternative whose literal matches but which is not followed by 11 id
characters fails, and the regex engine backtracks into the alternation. -/
def tryPats (pats : List (List Char)) (l : List Char) : Option (List Char) :=
  match pats with
  | [] => none
  | p :: ps =>
    match matchLit p l with
    | some rest =>
      match grab11 rest with
      | some v => some v
      | none => tryPats ps l
    | none => tryPats ps l

/-- `re.search`: the leftmost position where the pattern (a family of
literal alternatives followed by `([a-zA-Z0-9_-]{11})`) matches. -/
def searchPat (pats : List (List Char)) : List Char → Option (List Char)
  | [] => none
  | c :: r =>
    match tryPats pats (c :: r) with
    | some v => some v
    | none => searchPat pats r

/-- The literal part of `youtube\.com\/watch\?v=` (first alternative of
the first pattern at main.py:81). -/
def patWatch : List Char := "youtube.com/watch?v=".data

/-- The literal part of `youtu\.be\/` (second alternative, main.py:81). -/
def patShort : List Char := "youtu.be/".data

/-- The literal part of `youtube\.com\/embed\/` (main.py:82). -/
def patEmbed : List Char := "youtube.com/embed/".data

/-- The literal part of `youtube\.com\/v\/` (main.py:83). -/
def patV : List Char := "youtube.com/v/".data

/-- `TranscriptExtractor.extract_video_id` (main.py:66-91): try the three
patterns in order, return the first captured 11-character group; raise
`ValueError` (modelled as `.error` with the source's message) when none
matches. -/
def extract_video_id (url : String) : Except String String :=
  match searchPat [patWatch, patShort] url.data with
  | some v => .ok ⟨v⟩
  | none =>
    match searchPat [patEmbed] url.data with
    | some v => .ok ⟨v⟩
    | none =>
      match searchPat [patV] url.data with
      | some v => .ok ⟨v⟩
      | none => .error ("Could not extract video ID from URL: " ++ url)

/-! ## `TranscriptExtractor._parse_iso_duration` (main.py:237-247) -/

/-- Numeric value of a digit string (`int` on a `\d+` capture). -/
def natOfDigits (l : List Char) : Nat :=
  l.foldl (fun n c => n * 10 + (c.toNat - '0'.toNat)) 0

/-- One optional component `(?:(\d+)X)?` of the duration regex: consume a
digit run immediately followed by `suffix`, else leave the input unchanged
and yield 0 (missing groups default to 0 at main.py:244-246). -/
def parseOptComp (suffix : Char) (l : List Char) : Nat × List Char :=
  let ds := l.takeWhile Char.isDigit
  if ds.length ≠ 0 ∧ (l.drop ds.length).head? = some suffix then
    (natOfDigits ds, l.drop (ds.length + 1))
  else (0, l)

/-- The three optional components after the `PT` prefix, combined as
`hours * 3600 + minutes * 60 + seconds` (main.py:244-247). -/
def parseHMS (rest : List Char) : Nat :=
  let (h, r1) := parseOptComp 'H' rest
  let (m, r2) := parseOptComp 'M' r1
  let (s, _) := parseOptComp 'S' r2
  h * 3600 + m * 60 + s

/-- `TranscriptExtractor._parse_iso_duration` (main.py:237-247):
`re.match(r'PT(?:(\d+)H)?(?:(\d+)M)?(?:(\d+)S)?', s)` anchored at the
start; no match (no `PT` prefix) gives 0, and missing components give 0. -/
def _parse_iso_duration (duration_iso : String) : Nat :=
  match duration_iso.data with
  | 'P' :: 'T' :: rest => parseHMS rest
  | _ => 0

/-! ## `TranscriptExtractor.extract_transcript` (main.py:93-161) -/

/-- One segment returned by the captions library (`text`, `start`,
`duration`); the library's float timestamps are modelled as integers. -/
structure TEntry where
  text : String
  start : Int
  duration : Int

/-- Exceptions of the captions library relevant to the control flow. -/
inductive PyErr where
  | noTranscriptFound
  | transcriptsDisabled
  | otherErr (msg : String)

/-- `TranscriptExtractor.extract_transcript` (main.py:93-161).  The two
`YouTubeTranscriptApi.get_transcript` calls (preferred-English and
auto-generated, main.py:123-130) and `_extract_via_youtube_api`
(main.py:164-235, driven entirely by the external Data API) are oracles.
Control flow: a `NoTranscriptFound` from the first call triggers the
auto-generated retry; any failure of that stage falls back to the Data API
when `api_key` is configured and otherwise raises the final no-captions
error, which the outer handler (main.py:159-161) wraps once. -/
def extract_transcript (api_key : Option String)
    (get_en get_auto : Except PyErr (List TEntry))
    (api2 : String → Except String (String × Int))
    (url : String) : Except String (String × Int) :=
  match extract_video_id url with
  | .error m => .error ("Invalid YouTube URL: " ++ m)
  | .ok _ =>
    let r1 :=
      match get_en with
      | .error .noTranscriptFound => get_auto
      | x => x
    match r1 with
    | .ok entries =>
      let transcript := String.intercalate " " (entries.map TEntry.text)
      let duration : Int :=
        match entries.getLast? with
        | some e => e.start + e.duration
        | none => 0
      .ok (transcript, duration)
    | .error _ =>
      match api_key with
      | some k =>
        match api2 k with
        | .ok res => .ok res
        | .error m => .error ("Failed to extract transcript: " ++ m)
      | none =>
        .error ("Failed to extract transcript: No captions/subtitles available for this video. Please configure YOUTUBE_API_KEY in .env for better reliability.")

/-! ## JSON parsing (`json.loads`, used at main.py:527)

Model of the JSON value grammar accepted by `json.loads`, restricted to
integer numerals and escape-free strings (the fragment exercised by the
claims); `none` models a raised `JSONDecodeError`. -/

inductive JVal where
  | jnull
  | jbool (b : Bool)
  | jnum (n : Int)
  | jstr (s : String)
  | jarr (xs : List JVal)
  | jobj (fields : List (String × JVal))

/-- JSON inter-token whitespace (space, tab, LF, CR). -/
def isJWs (c : Char) : Bool := c == ' ' || c == '\t' || c == '\n' || c == '\r'

/-- Parse a JSON string body up to the closing quote (no escapes). -/
def parseJStr : List Char → Option (List Char × List Char)
  | [] => none
  | '"' :: r => some ([], r)
  | '\\' :: _ => none
  | c :: r => (parseJStr r).map fun (s, rest) => (c :: s, rest)

mutual

/-- Parse one JSON value; `fuel` bounds the recursion depth. -/
def parseJVal : Nat → List Char → Option (JVal × List Char)
  | 0, _ => none
  | fuel + 1, l =>
    match l.dropWhile isJWs with
    | 'n' :: 'u' :: 'l' :: 'l' :: r => some (.jnull, r)
    | 't' :: 'r' :: 'u' :: 'e' :: r => some (.jbool true, r)
    | 'f' :: 'a' :: 'l' :: 's' :: 'e' :: r => some (.jbool false, r)
    | '"' :: r => (parseJStr r).map fun (s, rest) => (.jstr ⟨s⟩, rest)
    | '[' :: r =>
      (match r.dropWhile isJWs with
       | ']' :: r2 => some (.jarr [], r2)
       | r2 => (parseJItems fuel r2).map fun (xs, rest) => (.jarr xs, rest))
    | '{' :: r =>
      (match r.dropWhile isJWs with
       | '}' :: r2 => some (.jobj [], r2)
       | r2 => (parseJFields fuel r2).map fun (fs, rest) => (.jobj fs, rest))
    | '-' :: r =>
      let ds := r.takeWhile Char.isDigit
      if ds.length = 0 then none
      else some (.jnum (-(natOfDigits ds : Int)), r.drop ds.length)
    | r =>
      let ds := r.takeWhile Char.isDigit
      if ds.length = 0 then none
      else some (.jnum (natOfDigits ds : Int), r.drop ds.length)

/-- Parse the comma-separated items of a nonempty JSON array, including the
closing bracket. -/
def parseJItems : Nat → List Char → Option (List JVal × List Char)
  | 0, _ => none
  | fuel + 1, l =>
    match parseJVal fuel l with
    | none => none
    | some (v, rest) =>
      match rest.dropWhile isJWs with
      | ',' :: r2 => (parseJItems fuel r2).map fun (xs, rest2) => (v :: xs, rest2)
      | ']' :: r2 => some ([v], r2)
      | _ => none

/-- Parse the comma-separated fields of a nonempty JSON object, including
the closing brace. -/
def parseJFields : Nat → List Char → Option (List (String × JVal) × List Char)
  | 0, _ => none
  | fuel + 1, l =>
    match l.dropWhile isJWs with
    | '"' :: r =>
      match parseJStr r with
      | none => none
      | some (k, rest) =>
        match rest.dropWhile isJWs with
        | ':' :: r2 =>
          match parseJVal fuel r2 with
          | none => none
          | some (v, rest2) =>
            match rest2.dropWhile isJWs with
            | ',' :: r3 => (parseJFields fuel r3).map fun (fs, rest3) => ((⟨k⟩, v) :: fs, rest3)
            | '}' :: r3 => some ([(⟨k⟩, v)], r3)
            | _ => none
        | _ => none
    | _ => none

end

/-- `json.loads`: parse one JSON value and require only whitespace after
it; `none` models `json.JSONDecodeError`. -/
def json_loads (s : String) : Option JVal :=
  match parseJVal (s.data.length + 1) s.data with
  | some (v, rest) => if rest.dropWhile isJWs = [] then some v else none
  | none => none

/-- The response-payload handling of `GroqAnalyzer.analyze_content`
(main.py:523-527): the provider's message content is passed to
`json.loads` directly — no markdown code-fence stripping is performed. -/
def analyze_parse (response_text : String) : Option JVal := json_loads response_text

/-! ## `GroqAnalyzer.analyze_content` result handling (main.py:529-539) -/

/-- The parsed provider JSON viewed through the declared fields of the
`AnalysisResponse` schema (main.py:47-60): each declared field is present
(`some`) or absent (`none`) in the provider's object. -/
structure AnalysisResult where
  title : Option String
  subject_area : Option String
  difficulty_level : Option String
  key_concepts : Option (List String)
  detailed_explanation : Option String
  learning_objectives : Option (List String)
  examples_covered : Option (List String)
  prerequisites : Option (List String)
  key_takeaways : Option (List String)
  summary : Option String

/-- The "Ensure all required fields are present" block of
`analyze_content` (main.py:529-535): exactly three fields are back-filled
when absent — `title`, `subject_area` and `difficulty_level`. -/
def ensure_required_fields (r : AnalysisResult) : AnalysisResult :=
  { r with
    title := some (r.title.getD "Educational Video Content")
    subject_area := some (r.subject_area.getD "General")
    difficulty_level := some (r.difficulty_level.getD "Intermediate") }

/-- Whether every declared field of the `AnalysisResult` shape is present. -/
def allFieldsPresent (r : AnalysisResult) : Bool :=
  r.title.isSome && r.subject_area.isSome && r.difficulty_level.isSome &&
  r.key_concepts.isSome && r.detailed_explanation.isSome &&
  r.learning_objectives.isSome && r.examples_covered.isSome &&
  r.prerequisites.isSome && r.key_takeaways.isSome && r.summary.isSome

/-- The validated `AnalysisResponse` pydantic model (main.py:47-60): every
declared field is required. -/
structure AnalysisResponse where
  title : String
  subject_area : String
  difficulty_level : String
  key_concepts : List String
  detailed_explanation : String
  learning_objectives : List String
  examples_covered : List String
  prerequisites : List String
  key_takeaways : List String
  summary : String
  success : Bool
  error : Option String

/-- `AnalysisResponse(**analysis_result, success=True)` (main.py:612-615):
pydantic validation succeeds only when every required field is present;
`none` models the raised `ValidationError`. -/
def buildResponse (r : AnalysisResult) : Option AnalysisResponse :=
  match r.title, r.subject_area, r.difficulty_level, r.key_concepts,
      r.detailed_explanation, r.learning_objectives, r.examples_covered,
      r.prerequisites, r.key_takeaways, r.summary with
  | some t, some sa, some dl, some kc, some de, some lo, some ec, some pr,
      some kt, some su =>
    some ⟨t, sa, dl, kc, de, lo, ec, pr, kt, su, true, none⟩
  | _, _, _, _, _, _, _, _, _, _ => none

/-! ## The HTTP endpoints `analyze_video` (main.py:576-628) and
`test_transcript_extraction` (main.py:631-646) -/

/-- `analyze_video` (main.py:576-628), with the transcript extraction and
the Groq analysis passed in as oracles (both are driven by external
services).  The result is the HTTP status on failure (`.error`) or the
validated response (`.ok`): 400 for a missing/short transcript
(main.py:599-603), 500 for any other pipeline failure (main.py:623-628). -/
def analyze_video (spacy : String → Option String)
    (extract : Except String (String × Int))
    (analyzer : String → Int → Except String AnalysisResult) :
    Except Nat AnalysisResponse :=
  match extract with
  | .error _ => .error 500
  | .ok (t, d) =>
    if t.isEmpty || t.length < 100 then .error 400
    else
      match clean_transcript spacy t with
      | none => .error 500
      | some c =>
        match analyzer c d with
        | .error _ => .error 500
        | .ok r =>
          match buildResponse r with
          | some resp => .ok resp
          | none => .error 500

/-- A Python value as it flows through `test_transcript_extraction`: the
endpoint binds the `(text, duration)` tuple returned by
`extract_transcript` to a single variable. -/
inductive PyVal where
  | pstr (s : String)
  | pint (n : Int)
  | ppair (a b : PyVal)

/-- Python `len` on such a value (`len` of a 2-tuple is 2; `len` of an
`int` raises `TypeError`, modelled as `none`). -/
def pyLen : PyVal → Option Nat
  | .pstr s => some s.length
  | .pint _ => none
  | .ppair _ _ => some 2

/-- `clean_transcript` as called with a dynamically typed argument: on a
non-string, the first `re.sub` (main.py:301) raises `TypeError`
(modelled as `none`). -/
def clean_transcript_py (spacy : String → Option String) : PyVal → Option String
  | .pstr s => clean_transcript spacy s
  | _ => none

/-- The success payload of `POST /test-transcript` (main.py:638-644).  The
reduction percentage is modelled as the exact rational
`100 - cleaned/raw*100` (the two-decimal float rounding of `round` is not
modelled). -/
structure TestTranscriptResponse where
  success : Bool
  raw_length : Nat
  cleaned_length : Nat
  reduction_percent : ℚ
  preview : String

/-- `test_transcript_extraction` (main.py:631-646).  Line 635 binds the
whole `(text, duration)` tuple to `raw_transcript` (no tuple unpacking) and
hands it to `clean_transcript`; any exception is mapped to HTTP 500
(main.py:645-646). -/
def test_transcript_extraction (spacy : String → Option String)
    (extract : Except String (String × Int)) : Except Nat TestTranscriptResponse :=
  match extract with
  | .error _ => .error 500
  | .ok (t, d) =>
    let raw : PyVal := .ppair (.pstr t) (.pint d)
    match clean_transcript_py spacy raw with
    | none => .error 500
    | some c =>
      match pyLen raw with
      | none => .error 500
      | some rl =>
        .ok ⟨true, rl, c.length, 100 - (c.length : ℚ) * 100 / (rl : ℚ), c.take 500⟩

/-! ## Auxiliary definitions used by the claim statements -/

/-- A provider response that contains every declared field except
`summary`. -/
def exampleMissingSummary : AnalysisResult :=
  ⟨some "Graphs", some "Mathematics", some "Beginner", some ["graphs"],
   some "An explanation", some ["objective"], some ["example"],
   some ["sets"], some ["takeaway"], none⟩

/-- Wrap a payload in the markdown code fence of the claim scenario. -/
def fencedResponse (j : String) : String := "```json\n" ++ j ++ "\n```"

/-- Render an optional `(?:(\d+)X)?` component as its concrete text. -/
def optComp (o : Option (List Char)) (suffix : Char) : List Char :=
  match o with
  | none => []
  | some ds => ds ++ [suffix]

/-- Value of an optional captured group (`int(match.group(i) or 0)`). -/
def optVal (o : Option (List Char)) : Nat :=
  match o with
  | none => 0
  | some ds => natOfDigits ds

/-- Invariant carried through the second normalizer pass: every period in
the string is immediately followed by a space.  The output of step 4 joins
period-free sentences with `". "`, and every later operation preserves the
invariant. -/
def okDots : List Char → Bool
  | [] => true
  | c :: r =>
    (if c = '.' then r.head? == some ' ' else true) && okDots r

/-- Whether the string is empty or ends in a non-whitespace character. -/
def endsOk : List Char → Bool
  | [] => true
  | [c] => !isWs c
  | _ :: r => endsOk r

/-! ## Supporting lemmas and claim theorems -/

/-- A nonempty string has nonempty character data. -/
theorem data_ne_nil_of_ne_empty (s : String) (h : s ≠ "") : s.data ≠ [] := by
  intro hd
  apply h
  cases s
  simp only [String.data] at hd
  simp [hd]

/-- For every nonempty input the normalizer returns a string (the
reduction-ratio log divides by the input length, which is nonzero). -/
theorem clean_transcript_isSome (spacy : String → Option String) (raw : String)
    (h : raw ≠ "") : (clean_transcript spacy raw).isSome := by
  unfold clean_transcript
  simp [data_ne_nil_of_ne_empty raw h]

/-- When the optional spaCy pass fails, the normalizer returns the
stripped step-5 text (the fallback of main.py:352-353). -/
theorem clean_transcript_spacy_fallback (raw : String) (h : raw ≠ "") :
    clean_transcript (fun _ => none) raw = some ⟨cleanPure raw.data⟩ := by
  unfold clean_transcript cleanPure
  simp [data_ne_nil_of_ne_empty raw h]

/-- C1: the claim says `clean_transcript` never raises, for every input
string including the empty string.  On the empty string the reduction-ratio
log line (main.py:356) computes `len(text)/len(raw_transcript)` and raises
`ZeroDivisionError`, so the function does raise there; this evaluation
exhibits the failure (`none` models the raised exception). -/
theorem clean_transcript_empty_raises :
    clean_transcript (fun _ => none) "" = none := rfl


/-- C2 counterexample: when the provider omits `summary`, the back-fill
block of `analyze_content` leaves it absent, so not every declared field of
the result handed to the caller is present. -/
theorem backfill_misses_summary :
    allFieldsPresent (ensure_required_fields exampleMissingSummary) = false := rfl

/-- C2 (amended): `analyze_content` back-fills exactly `title`,
`subject_area` and `difficulty_level` (with "Educational Video Content",
"General", "Intermediate"); the seven other declared fields are passed
through unchanged, absent or not. -/
theorem ensure_required_fields_spec (r : AnalysisResult) :
    (ensure_required_fields r).title = some (r.title.getD "Educational Video Content") ∧
    (ensure_required_fields r).subject_area = some (r.subject_area.getD "General") ∧
    (ensure_required_fields r).difficulty_level = some (r.difficulty_level.getD "Intermediate") ∧
    (ensure_required_fields r).key_concepts = r.key_concepts ∧
    (ensure_required_fields r).detailed_explanation = r.detailed_explanation ∧
    (ensure_required_fields r).learning_objectives = r.learning_objectives ∧
    (ensure_required_fields r).examples_covered = r.examples_covered ∧
    (ensure_required_fields r).prerequisites = r.prerequisites ∧
    (ensure_required_fields r).key_takeaways = r.key_takeaways ∧
    (ensure_required_fields r).summary = r.summary :=
  ⟨rfl, rfl, rfl, rfl, rfl, rfl, rfl, rfl, rfl, rfl⟩

/-- Closed witness for the amended C2 theorem, at the record with every
field absent. -/
theorem ensure_required_fields_spec_witness :
    (ensure_required_fields
        ⟨none, none, none, none, none, none, none, none, none, none⟩).title =
      some "Educational Video Content" ∧
    (ensure_required_fields
        ⟨none, none, none, none, none, none, none, none, none, none⟩).summary = none :=
  ⟨(ensure_required_fields_spec ⟨none, none, none, none, none, none, none, none, none, none⟩).1,
   (ensure_required_fields_spec
      ⟨none, none, none, none, none, none, none, none, none, none⟩).2.2.2.2.2.2.2.2.2⟩


/-- C3 counterexample: for the well-formed payload `{"title": "Intro"}`,
the fenced response fails JSON parsing while the unwrapped payload parses,
so the two parsed results differ — `analyze_content` strips no code
fences. -/
theorem analyze_parse_fence_counterexample :
    (analyze_parse "\x7b\"title\": \"Intro\"\x7d").isSome = true ∧
    analyze_parse (fencedResponse "\x7b\"title\": \"Intro\"\x7d") = none ∧
    analyze_parse (fencedResponse "\x7b\"title\": \"Intro\"\x7d") ≠
      analyze_parse "\x7b\"title\": \"Intro\"\x7d" := by
  refine ⟨rfl, rfl, fun h => ?_⟩
  have h1 : (analyze_parse "\x7b\"title\": \"Intro\"\x7d").isSome = true := rfl
  rw [← h] at h1
  have h2 : analyze_parse (fencedResponse "\x7b\"title\": \"Intro\"\x7d") = none := rfl
  rw [h2] at h1
  exact Bool.noConfusion h1

/-- C3 (amended): `analyze_content` performs no code-fence stripping — the
response text goes to `json.loads` unchanged (strict JSON mode is requested
from the provider instead), so any response starting with a backtick fails
parsing and raises the analysis parse error. -/
theorem analyze_parse_no_fence_stripping (s : String)
    (h : s.data.head? = some '`') : analyze_parse s = none := by
  unfold analyze_parse json_loads
  cases hd : s.data with
  | nil => rw [hd] at h; exact Option.noConfusion h
  | cons c r =>
    rw [hd] at h
    have hc : c = '`' := by
      simpa using h
    subst hc
    rfl

/-- Closed witness for the amended C3 theorem. -/
theorem analyze_parse_no_fence_stripping_witness :
    ("```json".data.head? = some '`') ∧ analyze_parse "```json" = none :=
  ⟨rfl, analyze_parse_no_fence_stripping "```json" rfl⟩

/-- C4: whenever transcript extraction succeeds, `test_transcript_extraction`
returns HTTP 500, never the diagnostic payload: line 635 binds the whole
`(text, duration)` tuple to `raw_transcript`, and `clean_transcript` then
raises `TypeError` on the tuple at its first `re.sub`. -/
theorem test_transcript_always_500 (spacy : String → Option String)
    (t : String) (d : Int) :
    test_transcript_extraction spacy (.ok (t, d)) = .error 500 := rfl

/-- Closed witness for C4 at one successful extraction. -/
theorem test_transcript_always_500_witness :
    test_transcript_extraction (fun _ => none)
      (.ok ("hello world this is a transcript", 60)) = .error 500 :=
  test_transcript_always_500 (fun _ => none) "hello world this is a transcript" 60

/-- C5: when strategy 1 fails with the no-captions error (both the
preferred-English and the auto-generated attempt raise `NoTranscriptFound`)
and no Data-API key is configured, `extract_transcript` raises one final
error — the same for every possible Data-API behavior `api2`, so strategy 2
is never attempted. -/
theorem extract_no_key_skips_api2 (api2 : String → Except String (String × Int)) :
    extract_transcript none (.error .noTranscriptFound) (.error .noTranscriptFound) api2
      "https://www.youtube.com/watch?v=dQw4w9WgXcQ" =
    .error ("Failed to extract transcript: No captions/subtitles available for this video. Please configure YOUTUBE_API_KEY in .env for better reliability.") := rfl

/-- Closed witness for C5 at one concrete Data-API behavior. -/
theorem extract_no_key_skips_api2_witness :
    extract_transcript none (.error .noTranscriptFound) (.error .noTranscriptFound)
      (fun _ => .ok ("never used", 1)) "https://www.youtube.com/watch?v=dQw4w9WgXcQ" =
    .error ("Failed to extract transcript: No captions/subtitles available for this video. Please configure YOUTUBE_API_KEY in .env for better reliability.") :=
  extract_no_key_skips_api2 (fun _ => .ok ("never used", 1))

/-- C6: a successfully extracted transcript shorter than 100 characters
makes `/analyze` return HTTP 400, for every possible analyzer — the
Analysis Requester is never invoked. -/
theorem analyze_video_short_transcript (spacy : String → Option String)
    (analyzer : String → Int → Except String AnalysisResult)
    (t : String) (d : Int) (h : t.length < 100) :
    analyze_video spacy (.ok (t, d)) analyzer = .error 400 := by
  unfold analyze_video
  simp [h]

/-- Closed witness for C6 at a 50-character transcript. -/
theorem analyze_video_short_transcript_witness :
    ("this transcript has exactly fifty characters here" : String).length < 100 ∧
    analyze_video (fun _ => none)
      (.ok ("this transcript has exactly fifty characters here", 3))
      (fun _ _ => .error "never called") = .error 400 :=
  ⟨by decide, analyze_video_short_transcript _ _ _ _ (by decide)⟩

/-- C8 counterexample: a caption parse yielding zero segments is not an
error — `extract_transcript` returns successfully with the empty transcript
and duration 0 (main.py:131-143 has no emptiness check). -/
theorem extract_empty_segments_counterexample :
    extract_transcript (some "key") (.ok []) (.error .noTranscriptFound)
      (fun _ => .error "api") "https://www.youtube.com/watch?v=dQw4w9WgXcQ" =
    .ok ("", 0) := rfl

/-- C8 (amended): zero parsed segments make `extract_transcript` return
`("", 0)` successfully, for every key configuration and every fallback
behavior; no `EmptyTranscriptError` exists (emptiness is only rejected
later by the `/analyze` length check). -/
theorem extract_empty_segments_spec (api_key : Option String)
    (get_auto : Except PyErr (List TEntry))
    (api2 : String → Except String (String × Int)) :
    extract_transcript api_key (.ok []) get_auto api2
      "https://www.youtube.com/watch?v=dQw4w9WgXcQ" = .ok ("", 0) := rfl

/-- Closed witness for the amended C8 theorem. -/
theorem extract_empty_segments_spec_witness :
    extract_transcript (some "key") (.ok []) (.error .transcriptsDisabled)
      (fun _ => .error "api down") "https://www.youtube.com/watch?v=dQw4w9WgXcQ" =
    .ok ("", 0) :=
  extract_empty_segments_spec (some "key") (.error .transcriptsDisabled)
    (fun _ => .error "api down")

/-! ### C9: the ISO-8601 duration parser -/



/-- `takeWhile isDigit` over a digit run followed by a non-digit. -/
theorem takeWhile_digits_append (ds : List Char) (c : Char) (r : List Char)
    (h : ∀ x ∈ ds, x.isDigit = true) (hc : c.isDigit = false) :
    (ds ++ c :: r).takeWhile Char.isDigit = ds := by
  induction ds with
  | nil => simp [List.takeWhile_cons, hc]
  | cons d ds ih =>
    have hd : d.isDigit = true := h d (by simp)
    simp only [List.cons_append, List.takeWhile_cons, hd, if_true]
    rw [ih (fun x hx => h x (by simp [hx]))]

/-- A component whose digits are followed by its own suffix is consumed. -/
theorem parseOptComp_hit (suffix : Char) (ds : List Char) (r : List Char)
    (hne : ds ≠ []) (h : ∀ x ∈ ds, x.isDigit = true) (hs : suffix.isDigit = false) :
    parseOptComp suffix (ds ++ suffix :: r) = (natOfDigits ds, r) := by
  unfold parseOptComp
  rw [takeWhile_digits_append ds suffix r h hs]
  have hlen : ds.length ≠ 0 := by simpa using hne
  have hdrop : (ds ++ suffix :: r).drop ds.length = suffix :: r := List.drop_left ds _
  have hdrop1 : (ds ++ suffix :: r).drop (ds.length + 1) = r := by
    rw [← List.drop_drop 1 ds.length (ds ++ suffix :: r), hdrop]
    rfl
  simp [hlen, hdrop, hdrop1]

/-- A (possibly empty) digit run followed by a different non-digit leaves
the component unmatched, the input unconsumed and the value 0. -/
theorem parseOptComp_skip (suffix : Char) (ds : List Char) (c : Char) (r : List Char)
    (h : ∀ x ∈ ds, x.isDigit = true) (hc : c.isDigit = false) (hcs : c ≠ suffix) :
    parseOptComp suffix (ds ++ c :: r) = (0, ds ++ c :: r) := by
  unfold parseOptComp
  rw [takeWhile_digits_append ds c r h hc]
  have hdrop : (ds ++ c :: r).drop ds.length = c :: r := List.drop_left ds _
  simp [hdrop, hcs]

/-- An empty tail matches no component. -/
theorem parseOptComp_nil (suffix : Char) : parseOptComp suffix [] = (0, []) := rfl

/-- C9: `_parse_iso_duration` maps `PT15M33S` to 933, `PT1H` to 3600,
`PT0S` to 0; every string without the `PT` prefix (hence unparsable) to 0;
and on every input of the form `PT#H#M#S` with any subset of components
present, missing components default to 0 and the result is
`hours * 3600 + minutes * 60 + seconds`. -/
theorem parse_iso_duration_spec :
    _parse_iso_duration "PT15M33S" = 933 ∧
    _parse_iso_duration "PT1H" = 3600 ∧
    _parse_iso_duration "PT0S" = 0 ∧
    (∀ s : String, s.data.take 2 ≠ ['P', 'T'] → _parse_iso_duration s = 0) ∧
    (∀ oh om os : Option (List Char),
      (∀ ds, oh = some ds → ds ≠ [] ∧ ∀ x ∈ ds, x.isDigit = true) →
      (∀ ds, om = some ds → ds ≠ [] ∧ ∀ x ∈ ds, x.isDigit = true) →
      (∀ ds, os = some ds → ds ≠ [] ∧ ∀ x ∈ ds, x.isDigit = true) →
      _parse_iso_duration
          ⟨'P' :: 'T' :: (optComp oh 'H' ++ optComp om 'M' ++ optComp os 'S')⟩ =
        optVal oh * 3600 + optVal om * 60 + optVal os) := by
  refine ⟨rfl, rfl, rfl, ?_, ?_⟩
  · intro s hs
    unfold _parse_iso_duration
    split
    · next rest heq => exact absurd (by rw [heq]; rfl) hs
    · rfl
  · intro oh om os h1 h2 h3
    have hP : _parse_iso_duration
        ⟨'P' :: 'T' :: (optComp oh 'H' ++ optComp om 'M' ++ optComp os 'S')⟩ =
        parseHMS (optComp oh 'H' ++ optComp om 'M' ++ optComp os 'S') := rfl
    rw [hP]
    rcases oh with _ | dh <;> rcases om with _ | dm <;> rcases os with _ | dq
    · rfl
    · obtain ⟨hne, hdig⟩ := h3 dq rfl
      have e1 := parseOptComp_skip 'H' dq 'S' [] hdig rfl (by decide)
      have e2 := parseOptComp_skip 'M' dq 'S' [] hdig rfl (by decide)
      have e3 := parseOptComp_hit 'S' dq [] hne hdig rfl
      simp [parseHMS, optComp, optVal, e1, e2, e3]
    · obtain ⟨hne, hdig⟩ := h2 dm rfl
      have e1 := parseOptComp_skip 'H' dm 'M' [] hdig rfl (by decide)
      have e2 := parseOptComp_hit 'M' dm [] hne hdig rfl
      simp [parseHMS, optComp, optVal, e1, e2, parseOptComp_nil]
    · obtain ⟨hnm, hdm⟩ := h2 dm rfl
      obtain ⟨hnq, hdq⟩ := h3 dq rfl
      have e1 := parseOptComp_skip 'H' dm 'M' (dq ++ ['S']) hdm rfl (by decide)
      have e2 := parseOptComp_hit 'M' dm (dq ++ ['S']) hnm hdm rfl
      have e3 := parseOptComp_hit 'S' dq [] hnq hdq rfl
      simp [parseHMS, optComp, optVal, e1, e2, e3]
    · obtain ⟨hnh, hdh⟩ := h1 dh rfl
      have e1 := parseOptComp_hit 'H' dh [] hnh hdh rfl
      simp [parseHMS, optComp, optVal, e1, parseOptComp_nil]
    · obtain ⟨hnh, hdh⟩ := h1 dh rfl
      obtain ⟨hnq, hdq⟩ := h3 dq rfl
      have e1 := parseOptComp_hit 'H' dh (dq ++ ['S']) hnh hdh rfl
      have e2 := parseOptComp_skip 'M' dq 'S' [] hdq rfl (by decide)
      have e3 := parseOptComp_hit 'S' dq [] hnq hdq rfl
      simp [parseHMS, optComp, optVal, e1, e2, e3]
    · obtain ⟨hnh, hdh⟩ := h1 dh rfl
      obtain ⟨hnm, hdm⟩ := h2 dm rfl
      have e1 := parseOptComp_hit 'H' dh (dm ++ ['M']) hnh hdh rfl
      have e2 := parseOptComp_hit 'M' dm [] hnm hdm rfl
      simp [parseHMS, optComp, optVal, e1, e2, parseOptComp_nil]
    · obtain ⟨hnh, hdh⟩ := h1 dh rfl
      obtain ⟨hnm, hdm⟩ := h2 dm rfl
      obtain ⟨hnq, hdq⟩ := h3 dq rfl
      have e1 := parseOptComp_hit 'H' dh (dm ++ 'M' :: (dq ++ ['S'])) hnh hdh rfl
      have e2 := parseOptComp_hit 'M' dm (dq ++ ['S']) hnm hdm rfl
      have e3 := parseOptComp_hit 'S' dq [] hnq hdq rfl
      simp [parseHMS, optComp, optVal, e1, e2, e3]

/-! ### C10: the video identifier resolver -/

/-- A literal pattern matches its own text followed by anything. -/
theorem matchLit_self (p rest : List Char) : matchLit p (p ++ rest) = some rest := by
  induction p with
  | nil => rfl
  | cons c cs ih => simp [matchLit, ih]

/-- A successful literal match decomposes the input. -/
theorem matchLit_eq_append (p : List Char) :
    ∀ l rest, matchLit p l = some rest → l = p ++ rest := by
  induction p with
  | nil =>
    intro l rest h
    simp only [matchLit] at h
    rw [List.nil_append]
    exact Option.some.inj h
  | cons c cs ih =>
    intro l rest h
    cases l with
    | nil => exact Option.noConfusion h
    | cons x xs =>
      by_cases hx : x = c
      · subst hx
        simp only [matchLit, if_pos rfl] at h
        rw [ih xs rest h]
        rfl
      · simp [matchLit, hx] at h

/-- The 11-character capture group, at a position where at least 11 id
characters follow. -/
theorem grab11_append (idc post : List Char) (hlen : idc.length = 11)
    (hch : ∀ c ∈ idc, isIdChar c = true) : grab11 (idc ++ post) = some idc := by
  unfold grab11
  have ht : (idc ++ post).take 11 = idc := by
    rw [← hlen]
    exact List.take_left idc post
  rw [ht]
  have hall : idc.all isIdChar = true := List.all_eq_true.mpr hch
  simp [hlen, hall]

/-- No alternative matches at a position whose character is not `y`, for
patterns that all start with `y`. -/
theorem tryPats_cons_ne (pats : List (List Char)) (c : Char) (r : List Char)
    (hh : ∀ p ∈ pats, ∃ t, p = 'y' :: t) (hc : c ≠ 'y') :
    tryPats pats (c :: r) = none := by
  induction pats with
  | nil => rfl
  | cons p ps ih =>
    obtain ⟨t, ht⟩ := hh p (by simp)
    subst ht
    simp only [tryPats, matchLit, if_neg hc]
    exact ih (fun q hq => hh q (by simp [hq]))

/-- The search skips a position whose character is not `y`. -/
theorem searchPat_cons_ne (pats : List (List Char)) (c : Char) (r : List Char)
    (hh : ∀ p ∈ pats, ∃ t, p = 'y' :: t) (hc : c ≠ 'y') :
    searchPat pats (c :: r) = searchPat pats r := by
  simp [searchPat, tryPats_cons_ne pats c r hh hc]

/-- The search skips a whole `y`-free prefix. -/
theorem searchPat_append_ne (pats : List (List Char)) (pre l : List Char)
    (hh : ∀ p ∈ pats, ∃ t, p = 'y' :: t) (hp : ∀ c ∈ pre, c ≠ 'y') :
    searchPat pats (pre ++ l) = searchPat pats l := by
  induction pre with
  | nil => rfl
  | cons c cs ih =>
    rw [List.cons_append, searchPat_cons_ne pats c (cs ++ l) hh (hp c (by simp))]
    exact ih (fun x hx => hp x (by simp [hx]))

/-- The search fails on a `y`-free string. -/
theorem searchPat_none_no_y (pats : List (List Char))
    (hh : ∀ p ∈ pats, ∃ t, p = 'y' :: t) :
    ∀ l, (∀ c ∈ l, c ≠ 'y') → searchPat pats l = none := by
  intro l
  induction l with
  | nil => intro _; rfl
  | cons c r ih =>
    intro hl
    rw [searchPat_cons_ne pats c r hh (hl c (by simp))]
    exact ih (fun x hx => hl x (by simp [hx]))

/-- No alternative matches anywhere in a dot-free string, for patterns
that all contain a dot. -/
theorem tryPats_none_no_dot (pats : List (List Char)) (l : List Char)
    (hd : ∀ p ∈ pats, '.' ∈ p) (hl : '.' ∉ l) : tryPats pats l = none := by
  induction pats with
  | nil => rfl
  | cons p ps ih =>
    have hrec := ih (fun q hq => hd q (by simp [hq]))
    cases hm : matchLit p l with
    | none => simp [tryPats, hm, hrec]
    | some rest =>
      exact absurd
        (matchLit_eq_append p l rest hm ▸ List.mem_append_left rest (hd p (by simp)))
        hl

/-- The search fails on a dot-free string, for patterns that all contain
a dot. -/
theorem searchPat_none_no_dot (pats : List (List Char))
    (hd : ∀ p ∈ pats, '.' ∈ p) :
    ∀ l, '.' ∉ l → searchPat pats l = none := by
  intro l
  induction l with
  | nil => intro _; rfl
  | cons c r ih =>
    intro hl
    have h1 : tryPats pats (c :: r) = none := tryPats_none_no_dot pats (c :: r) hd hl
    simp only [searchPat, h1]
    exact ih (fun hr => hl (by simp [hr]))

/-- A position where some alternative succeeds ends the search. -/
theorem searchPat_cons_hit (pats : List (List Char)) (c : Char) (r : List Char)
    (v : List Char) (h : tryPats pats (c :: r) = some v) :
    searchPat pats (c :: r) = some v := by
  simp [searchPat, h]

/-- A position where no alternative succeeds continues the search. -/
theorem searchPat_cons_miss (pats : List (List Char)) (c : Char) (r : List Char)
    (h : tryPats pats (c :: r) = none) :
    searchPat pats (c :: r) = searchPat pats r := by
  simp [searchPat, h]

/-- The first alternative succeeds on its own literal followed by a valid
capture. -/
theorem tryPats_first (p : List Char) (ps : List (List Char)) (X v : List Char)
    (hg : grab11 X = some v) : tryPats (p :: ps) (p ++ X) = some v := by
  simp [tryPats, matchLit_self, hg]

/-- All patterns of the resolver start with `y`. -/
theorem headsWatch : ∀ p ∈ [patWatch, patShort], ∃ t, p = 'y' :: t := by
  intro p hp
  rcases List.mem_cons.mp hp with rfl | hp
  · exact ⟨"outube.com/watch?v=".data, rfl⟩
  · rcases List.mem_cons.mp hp with rfl | hp
    · exact ⟨"outu.be/".data, rfl⟩
    · exact absurd hp (List.not_mem_nil p)

/-- The embed pattern starts with `y`. -/
theorem headsEmbed : ∀ p ∈ [patEmbed], ∃ t, p = 'y' :: t := by
  intro p hp
  rcases List.mem_cons.mp hp with rfl | hp
  · exact ⟨"outube.com/embed/".data, rfl⟩
  · exact absurd hp (List.not_mem_nil p)

/-- The `/v/` pattern starts with `y`. -/
theorem headsV : ∀ p ∈ [patV], ∃ t, p = 'y' :: t := by
  intro p hp
  rcases List.mem_cons.mp hp with rfl | hp
  · exact ⟨"outube.com/v/".data, rfl⟩
  · exact absurd hp (List.not_mem_nil p)

/-- An 11-character id followed by a dot-free tail is dot-free. -/
theorem no_dot_of_id_post (idc post : List Char)
    (hch : ∀ c ∈ idc, isIdChar c = true) (hpost : '.' ∉ post) :
    '.' ∉ idc ++ post := by
  intro hmem
  rcases List.mem_append.mp hmem with h | h
  · have := hch '.' h
    exact absurd this (by decide)
  · exact hpost h

/-- C10: for each supported URL shape — `watch?v=`, `youtu.be/`, `embed/`,
`/v/` followed by an 11-character identifier — `extract_video_id` returns
exactly that identifier, trying the three patterns in source order and
returning the first match (the prefix before the pattern contains no `y`,
and for the `embed`/`/v/` shapes the tail after the identifier contains no
dot, so no earlier pattern can match elsewhere); a URL containing no `y`
matches no pattern and fails with the `ValueError` of main.py:91. -/
theorem extract_video_id_spec :
    (∀ pre idv post : String, (∀ c ∈ pre.data, c ≠ 'y') → idv.length = 11 →
      (∀ c ∈ idv.data, isIdChar c = true) →
      extract_video_id (pre ++ "youtube.com/watch?v=" ++ idv ++ post) = .ok idv) ∧
    (∀ pre idv post : String, (∀ c ∈ pre.data, c ≠ 'y') → idv.length = 11 →
      (∀ c ∈ idv.data, isIdChar c = true) →
      extract_video_id (pre ++ "youtu.be/" ++ idv ++ post) = .ok idv) ∧
    (∀ pre idv post : String, (∀ c ∈ pre.data, c ≠ 'y') → idv.length = 11 →
      (∀ c ∈ idv.data, isIdChar c = true) → '.' ∉ post.data →
      extract_video_id (pre ++ "youtube.com/embed/" ++ idv ++ post) = .ok idv) ∧
    (∀ pre idv post : String, (∀ c ∈ pre.data, c ≠ 'y') → idv.length = 11 →
      (∀ c ∈ idv.data, isIdChar c = true) → '.' ∉ post.data →
      extract_video_id (pre ++ "youtube.com/v/" ++ idv ++ post) = .ok idv) ∧
    (∀ url : String, (∀ c ∈ url.data, c ≠ 'y') →
      extract_video_id url =
        .error ("Could not extract video ID from URL: " ++ url)) := by
  have hgrab : ∀ (idv post : String), idv.length = 11 →
      (∀ c ∈ idv.data, isIdChar c = true) →
      grab11 (idv.data ++ post.data) = some idv.data := by
    intro idv post hlen hch
    exact grab11_append idv.data post.data hlen hch
  refine ⟨?_, ?_, ?_, ?_, ?_⟩
  · intro pre idv post hp hlen hch
    have hdata : (pre ++ "youtube.com/watch?v=" ++ idv ++ post).data =
        pre.data ++ (patWatch ++ (idv.data ++ post.data)) := by
      simp [patWatch, List.append_assoc]
    have h1 : searchPat [patWatch, patShort]
        (pre ++ "youtube.com/watch?v=" ++ idv ++ post).data = some idv.data := by
      rw [hdata, searchPat_append_ne _ pre.data _ headsWatch hp]
      have hcons : patWatch ++ (idv.data ++ post.data) =
          'y' :: ("outube.com/watch?v=".data ++ (idv.data ++ post.data)) := rfl
      rw [hcons]
      refine searchPat_cons_hit _ _ _ _ ?_
      rw [← hcons]
      exact tryPats_first patWatch [patShort] _ _ (hgrab idv post hlen hch)
    unfold extract_video_id
    rw [h1]
  · intro pre idv post hp hlen hch
    have hdata : (pre ++ "youtu.be/" ++ idv ++ post).data =
        pre.data ++ (patShort ++ (idv.data ++ post.data)) := by
      simp [patShort, List.append_assoc]
    have h1 : searchPat [patWatch, patShort]
        (pre ++ "youtu.be/" ++ idv ++ post).data = some idv.data := by
      rw [hdata, searchPat_append_ne _ pre.data _ headsWatch hp]
      have hcons : patShort ++ (idv.data ++ post.data) =
          'y' :: ("outu.be/".data ++ (idv.data ++ post.data)) := rfl
      rw [hcons]
      refine searchPat_cons_hit _ _ _ _ ?_
      rw [← hcons]
      have hm1 : matchLit patWatch (patShort ++ (idv.data ++ post.data)) = none := rfl
      simp only [tryPats, hm1, matchLit_self, hgrab idv post hlen hch]
    unfold extract_video_id
    rw [h1]
  · intro pre idv post hp hlen hch hpost
    have hnd : '.' ∉ idv.data ++ post.data := no_dot_of_id_post _ _ hch hpost
    have hdata : (pre ++ "youtube.com/embed/" ++ idv ++ post).data =
        pre.data ++ (patEmbed ++ (idv.data ++ post.data)) := by
      simp [patEmbed, List.append_assoc]
    have h1 : searchPat [patWatch, patShort]
        (pre ++ "youtube.com/embed/" ++ idv ++ post).data = none := by
      rw [hdata, searchPat_append_ne _ pre.data _ headsWatch hp]
      have hcons : patEmbed ++ (idv.data ++ post.data) =
          'y' :: ("outube.com/embed/".data ++ (idv.data ++ post.data)) := rfl
      rw [hcons]
      rw [searchPat_cons_miss _ _ _ ?hmiss]
      case hmiss =>
        rw [← hcons]
        have hm1 : matchLit patWatch (patEmbed ++ (idv.data ++ post.data)) = none := rfl
        have hm2 : matchLit patShort (patEmbed ++ (idv.data ++ post.data)) = none := rfl
        simp [tryPats, hm1, hm2]
      rw [searchPat_append_ne _ "outube.com/embed/".data _ headsWatch (by decide)]
      exact searchPat_none_no_dot _ (by decide) _ hnd
    have h2 : searchPat [patEmbed]
        (pre ++ "youtube.com/embed/" ++ idv ++ post).data = some idv.data := by
      rw [hdata, searchPat_append_ne _ pre.data _ headsEmbed hp]
      have hcons : patEmbed ++ (idv.data ++ post.data) =
          'y' :: ("outube.com/embed/".data ++ (idv.data ++ post.data)) := rfl
      rw [hcons]
      refine searchPat_cons_hit _ _ _ _ ?_
      rw [← hcons]
      exact tryPats_first patEmbed [] _ _ (hgrab idv post hlen hch)
    unfold extract_video_id
    rw [h1, h2]
  · intro pre idv post hp hlen hch hpost
    have hnd : '.' ∉ idv.data ++ post.data := no_dot_of_id_post _ _ hch hpost
    have hdata : (pre ++ "youtube.com/v/" ++ idv ++ post).data =
        pre.data ++ (patV ++ (idv.data ++ post.data)) := by
      simp [patV, List.append_assoc]
    have hcons : patV ++ (idv.data ++ post.data) =
        'y' :: ("outube.com/v/".data ++ (idv.data ++ post.data)) := rfl
    have h1 : searchPat [patWatch, patShort]
        (pre ++ "youtube.com/v/" ++ idv ++ post).data = none := by
      rw [hdata, searchPat_append_ne _ pre.data _ headsWatch hp, hcons]
      rw [searchPat_cons_miss _ _ _ ?hmiss1]
      case hmiss1 =>
        rw [← hcons]
        have hm1 : matchLit patWatch (patV ++ (idv.data ++ post.data)) = none := rfl
        have hm2 : matchLit patShort (patV ++ (idv.data ++ post.data)) = none := rfl
        simp [tryPats, hm1, hm2]
      rw [searchPat_append_ne _ "outube.com/v/".data _ headsWatch (by decide)]
      exact searchPat_none_no_dot _ (by decide) _ hnd
    have h2 : searchPat [patEmbed]
        (pre ++ "youtube.com/v/" ++ idv ++ post).data = none := by
      rw [hdata, searchPat_append_ne _ pre.data _ headsEmbed hp, hcons]
      rw [searchPat_cons_miss _ _ _ ?hmiss2]
      case hmiss2 =>
        rw [← hcons]
        have hm1 : matchLit patEmbed (patV ++ (idv.data ++ post.data)) = none := rfl
        simp [tryPats, hm1]
      rw [searchPat_append_ne _ "outube.com/v/".data _ headsEmbed (by decide)]
      exact searchPat_none_no_dot _ (by decide) _ hnd
    have h3 : searchPat [patV]
        (pre ++ "youtube.com/v/" ++ idv ++ post).data = some idv.data := by
      rw [hdata, searchPat_append_ne _ pre.data _ headsV hp, hcons]
      refine searchPat_cons_hit _ _ _ _ ?_
      rw [← hcons]
      exact tryPats_first patV [] _ _ (hgrab idv post hlen hch)
    unfold extract_video_id
    rw [h1, h2, h3]
  · intro url hy
    unfold extract_video_id
    rw [searchPat_none_no_y _ headsWatch url.data hy,
      searchPat_none_no_y _ headsEmbed url.data hy,
      searchPat_none_no_y _ headsV url.data hy]

/-- Closed witness for C10: one URL per supported shape plus a
non-matching URL. -/
theorem extract_video_id_spec_witness :
    extract_video_id ("https://www." ++ "youtube.com/watch?v=" ++ "dQw4w9WgXcQ" ++ "&t=2") =
      .ok "dQw4w9WgXcQ" ∧
    extract_video_id ("https://" ++ "youtu.be/" ++ "dQw4w9WgXcQ" ++ "?t=1") =
      .ok "dQw4w9WgXcQ" ∧
    extract_video_id ("https://www." ++ "youtube.com/embed/" ++ "dQw4w9WgXcQ" ++ "") =
      .ok "dQw4w9WgXcQ" ∧
    extract_video_id ("https://www." ++ "youtube.com/v/" ++ "dQw4w9WgXcQ" ++ "") =
      .ok "dQw4w9WgXcQ" ∧
    extract_video_id "https://example.com/clip" =
      .error ("Could not extract video ID from URL: " ++ "https://example.com/clip") := by
  obtain ⟨h1, h2, h3, h4, h5⟩ := extract_video_id_spec
  exact ⟨h1 "https://www." "dQw4w9WgXcQ" "&t=2" (by decide) (by decide) (by decide),
    h2 "https://" "dQw4w9WgXcQ" "?t=1" (by decide) (by decide) (by decide),
    h3 "https://www." "dQw4w9WgXcQ" "" (by decide) (by decide) (by decide) (by decide),
    h4 "https://www." "dQw4w9WgXcQ" "" (by decide) (by decide) (by decide) (by decide),
    h5 "https://example.com/clip" (by decide)⟩

/-! ### C7: the normalizer never grows under a second pass

The proof rests on the invariant `okDots` (every period is immediately
followed by a space), which holds for every first-pass output: step 4 joins
period-free sentences with `". "`.  The eight deletion passes of steps 1-3
preserve the invariant because none of their matches can start at a space
(except the `^`-anchored speaker pattern, whose anchor characters are not
periods), so a surviving period keeps its following space; under the
invariant, step 4 of the second pass cannot grow the string (the `". "`
separators it inserts replace a period plus a strippable leading space),
and every other step only deletes. -/

theorem okDots_cons (c : Char) (r : List Char) :
    okDots (c :: r) = ((if c = '.' then r.head? == some ' ' else true) && okDots r) := rfl

theorem okDots_tail {c : Char} {r : List Char} (h : okDots (c :: r) = true) :
    okDots r = true := by
  rw [okDots_cons] at h
  simp only [Bool.and_eq_true] at h
  exact h.2

theorem okDots_dot {r : List Char} (h : okDots ('.' :: r) = true) :
    ∃ t, r = ' ' :: t := by
  rw [okDots_cons] at h
  simp only [if_pos rfl, Bool.and_eq_true] at h
  obtain ⟨h1, _⟩ := h
  cases r with
  | nil => simp at h1
  | cons d t =>
    have hd : d = ' ' := by simpa using h1
    exact ⟨t, by rw [hd]⟩

theorem okDots_cons_of {c : Char} {r : List Char} (h : okDots r = true)
    (hc : c ≠ '.') : okDots (c :: r) = true := by
  rw [okDots_cons, if_neg hc]
  simpa using h

theorem okDots_dot_space {t : List Char} (h : okDots (' ' :: t) = true) :
    okDots ('.' :: ' ' :: t) = true := by
  rw [okDots_cons, if_pos rfl]
  simpa using h

theorem okDots_of_no_dot {l : List Char} (h : '.' ∉ l) : okDots l = true := by
  induction l with
  | nil => rfl
  | cons c r ih =>
    have hc : c ≠ '.' := fun hx => h (by simp [hx])
    exact okDots_cons_of (ih (fun hx => h (by simp [hx]))) hc

theorem okDots_dropWhile (p : Char → Bool) {l : List Char}
    (h : okDots l = true) : okDots (l.dropWhile p) = true := by
  induction l with
  | nil => exact h
  | cons c r ih =>
    by_cases hp : p c = true
    · rw [List.dropWhile_cons_of_pos hp]
      exact ih (okDots_tail h)
    · rw [List.dropWhile_cons_of_neg (by simpa using hp)]
      exact h

theorem okDots_drop : ∀ (n : Nat) (l : List Char), okDots l = true →
    okDots (l.drop n) = true := by
  intro n
  induction n with
  | zero => intro l h; exact h
  | succ n ih =>
    intro l h
    cases l with
    | nil => exact h
    | cons c r => exact ih r (okDots_tail h)

theorem okDots_prepend_no_dot {s : List Char} (hs : '.' ∉ s) {m : List Char}
    (hm : okDots m = true) : okDots (s ++ m) = true := by
  induction s with
  | nil => exact hm
  | cons c r ih =>
    have hc : c ≠ '.' := fun hx => hs (by simp [hx])
    exact okDots_cons_of (ih (fun hx => hs (by simp [hx]))) hc

theorem endsOk_cons {c : Char} {r : List Char} (h : r ≠ []) :
    endsOk (c :: r) = endsOk r := by
  cases r with
  | nil => exact absurd rfl h
  | cons d t => rfl

theorem endsOk_append_singleton (x : List Char) (c : Char) :
    endsOk (x ++ [c]) = !isWs c := by
  induction x with
  | nil => rfl
  | cons a as ih =>
    rw [List.cons_append, endsOk_cons (by simp), ih]

theorem endsOk_append_right (s : List Char) {m : List Char} (hm : m ≠ []) :
    endsOk (s ++ m) = endsOk m := by
  induction s with
  | nil => rfl
  | cons a as ih =>
    rw [List.cons_append, endsOk_cons (by simp [hm]), ih]

theorem endsOk_of_reverse_head {l : List Char} :
    endsOk l = (match l.reverse.head? with | some c => !isWs c | none => true) := by
  induction l using List.reverseRecOn with
  | nil => rfl
  | append_singleton x c _ =>
    rw [endsOk_append_singleton]
    simp

theorem endsOk_false_of_all_ws {l : List Char} (hne : l ≠ [])
    (h : ∀ x ∈ l, isWs x = true) : endsOk l = false := by
  induction l with
  | nil => exact absurd rfl hne
  | cons c r ih =>
    cases r with
    | nil =>
      have := h c (by simp)
      simp [endsOk, this]
    | cons d t =>
      rw [endsOk_cons (by simp)]
      exact ih (by simp) (fun x hx => h x (by simp [hx]))

theorem endsOk_dropWhile (p : Char → Bool) {l : List Char}
    (h : endsOk l = true) : endsOk (l.dropWhile p) = true := by
  induction l with
  | nil => exact h
  | cons c r ih =>
    by_cases hp : p c = true
    · rw [List.dropWhile_cons_of_pos hp]
      cases r with
      | nil => rfl
      | cons d t => exact ih h
    · rw [List.dropWhile_cons_of_neg (by simpa using hp)]
      exact h

theorem endsOk_pyStripRight (y : List Char) : endsOk (pyStripRight y) = true := by
  unfold pyStripRight
  rw [endsOk_of_reverse_head]
  rw [List.reverse_reverse]
  have h := List.head?_dropWhile_not isWs y.reverse
  revert h
  cases (y.reverse.dropWhile isWs).head? with
  | none => intro _; rfl
  | some c => intro h; simp [h]

theorem pyStripRight_of_endsOk {y : List Char} (h : endsOk y = true) :
    pyStripRight y = y := by
  unfold pyStripRight
  rw [endsOk_of_reverse_head] at h
  cases hy : y.reverse with
  | nil =>
    have : y = [] := by simpa using congrArg List.reverse hy
    simp [this]
  | cons c t =>
    rw [hy] at h
    simp only [List.head?_cons] at h
    rw [List.dropWhile_cons_of_neg (by simpa using h), ← hy, List.reverse_reverse]

theorem endsOk_pyStrip (l : List Char) : endsOk (pyStrip l) = true :=
  endsOk_pyStripRight _

theorem pyStrip_length_le (l : List Char) : (pyStrip l).length ≤ l.length := by
  unfold pyStrip pyStripRight
  calc ((l.dropWhile isWs).reverse.dropWhile isWs).reverse.length
      = ((l.dropWhile isWs).reverse.dropWhile isWs).length := List.length_reverse _
    _ ≤ (l.dropWhile isWs).reverse.length := (List.dropWhile_sublist isWs).length_le
    _ = (l.dropWhile isWs).length := List.length_reverse _
    _ ≤ l.length := (List.dropWhile_sublist isWs).length_le

theorem pyStrip_cons_space (r : List Char) : pyStrip (' ' :: r) = pyStrip r := by
  unfold pyStrip
  rw [List.dropWhile_cons_of_pos (by decide)]

theorem pyStrip_mem {a : Char} {l : List Char} (h : a ∈ pyStrip l) : a ∈ l := by
  unfold pyStrip pyStripRight at h
  rw [List.mem_reverse] at h
  have h2 := (List.dropWhile_sublist isWs).subset h
  rw [List.mem_reverse] at h2
  exact (List.dropWhile_sublist isWs).subset h2

theorem pyStrip_okDots {l : List Char} (hok : okDots l = true)
    (hend : endsOk l = true) : okDots (pyStrip l) = true := by
  unfold pyStrip
  rw [pyStripRight_of_endsOk (endsOk_dropWhile isWs hend)]
  exact okDots_dropWhile isWs hok

theorem genSub_length (m : Option Char → List Char → Option Nat) :
    ∀ (fuel : Nat) (prev : Option Char) (l : List Char),
      (genSub m fuel prev l).length ≤ l.length := by
  intro fuel
  induction fuel with
  | zero => intro prev l; exact Nat.le_refl _
  | succ fuel ih =>
    intro prev l
    cases l with
    | nil => exact Nat.le_refl _
    | cons c r =>
      cases hm : m prev (c :: r) with
      | some k =>
        simp only [genSub, hm]
        calc (genSub m fuel _ (r.drop (k - 1))).length
            ≤ (r.drop (k - 1)).length := ih _ _
          _ ≤ r.length := by rw [List.length_drop]; omega
          _ ≤ (c :: r).length := by simp
      | none =>
        simp only [genSub, hm, List.length_cons]
        exact Nat.succ_le_succ (ih _ _)

/-- Scanning a space-headed string with a non-anchor previous character
keeps the leading space: no matcher satisfying the side condition can match
there. -/
theorem genSub_space_head (m : Option Char → List Char → Option Nat)
    (hm : ∀ p r k, m p (' ' :: r) = some k → p = none ∨ p = some '\n') :
    ∀ (fuel : Nat) (t : List Char),
      ∃ z, genSub m fuel (some '.') (' ' :: t) = ' ' :: z := by
  intro fuel t
  cases fuel with
  | zero => exact ⟨t, rfl⟩
  | succ fuel =>
    cases hmm : m (some '.') (' ' :: t) with
    | some k => exact absurd (hm _ _ _ hmm) (by simp)
    | none =>
      refine ⟨genSub m fuel (some ' ') t, ?_⟩
      simp [genSub, hmm]

/-- The central preservation lemma: a deletion pass whose matches never
start at a space (unless anchored at the start or after a newline) keeps
every surviving period followed by a space. -/
theorem genSub_okDots (m : Option Char → List Char → Option Nat)
    (hm : ∀ p r k, m p (' ' :: r) = some k → p = none ∨ p = some '\n') :
    ∀ (fuel : Nat) (prev : Option Char) (l : List Char),
      okDots l = true → okDots (genSub m fuel prev l) = true := by
  intro fuel
  induction fuel with
  | zero => intro prev l h; exact h
  | succ fuel ih =>
    intro prev l h
    cases l with
    | nil => exact rfl
    | cons c r =>
      cases hmm : m prev (c :: r) with
      | some k =>
        simp only [genSub, hmm]
        exact ih _ _ (okDots_drop (k - 1) r (okDots_tail h))
      | none =>
        simp only [genSub, hmm]
        by_cases hc : c = '.'
        · subst hc
          obtain ⟨t, rfl⟩ := okDots_dot h
          obtain ⟨z, hz⟩ := genSub_space_head m hm fuel t
          rw [hz]
          have hX : okDots (' ' :: z) = true := by
            rw [← hz]
            exact ih (some '.') (' ' :: t) (okDots_tail h)
          exact okDots_dot_space hX
        · exact okDots_cons_of (ih (some c) r (okDots_tail h)) hc

/-! The side condition for each of the eight matchers of steps 1-3: a
match never starts at a space except at an anchor. -/

theorem hsp_mTsBr : ∀ p r k, mTsBr p (' ' :: r) = some k → p = none ∨ p = some '\n' := by
  intro p r k h
  simp [mTsBr] at h

theorem hsp_mTs3 : ∀ p r k, mTs3 p (' ' :: r) = some k → p = none ∨ p = some '\n' := by
  intro p r k h
  have hd : takeDigitsLen (' ' :: r) = 0 := by
    simp [takeDigitsLen, List.takeWhile_cons]
  simp [mTs3, hd] at h

theorem hsp_mTs2 : ∀ p r k, mTs2 p (' ' :: r) = some k → p = none ∨ p = some '\n' := by
  intro p r k h
  have hd : takeDigitsLen (' ' :: r) = 0 := by
    simp [takeDigitsLen, List.takeWhile_cons]
  simp [mTs2, hd] at h

theorem hsp_mSpeak : ∀ p r k, mSpeak p (' ' :: r) = some k → p = none ∨ p = some '\n' := by
  intro p r k h
  by_cases hp : p = none ∨ p = some '\n'
  · exact hp
  · simp only [mSpeak, if_neg hp] at h
    exact Option.noConfusion h

theorem hsp_mBrkt : ∀ p r k, mBrkt p (' ' :: r) = some k → p = none ∨ p = some '\n' := by
  intro p r k h
  simp [mBrkt] at h

theorem hsp_mFill1 : ∀ p r k, mFill1 p (' ' :: r) = some k → p = none ∨ p = some '\n' := by
  intro p r k h
  by_cases hb : boundaryBefore p = true
  · have hnone : mFill1 p (' ' :: r) = none := by
      unfold mFill1
      rw [if_pos hb]
      rfl
    rw [hnone] at h
    exact Option.noConfusion h
  · simp only [mFill1, hb] at h
    simp at h

theorem hsp_mFill2 : ∀ p r k, mFill2 p (' ' :: r) = some k → p = none ∨ p = some '\n' := by
  intro p r k h
  by_cases hb : boundaryBefore p = true
  · have hnone : mFill2 p (' ' :: r) = none := by
      unfold mFill2
      rw [if_pos hb]
      rfl
    rw [hnone] at h
    exact Option.noConfusion h
  · simp only [mFill2, hb] at h
    simp at h

theorem hsp_mFill3 : ∀ p r k, mFill3 p (' ' :: r) = some k → p = none ∨ p = some '\n' := by
  intro p r k h
  by_cases hb : boundaryBefore p = true
  · have hnone : mFill3 p (' ' :: r) = none := by
      unfold mFill3
      rw [if_pos hb]
      rfl
    rw [hnone] at h
    exact Option.noConfusion h
  · simp only [mFill3, hb] at h
    simp at h

theorem okDots_subAll (m : Option Char → List Char → Option Nat)
    (hm : ∀ p r k, m p (' ' :: r) = some k → p = none ∨ p = some '\n')
    (l : List Char) (h : okDots l = true) : okDots (subAll m l) = true :=
  genSub_okDots m hm l.length none l h

theorem okDots_step123 (l : List Char) (h : okDots l = true) :
    okDots (step123 l) = true := by
  unfold step123
  exact okDots_subAll mFill3 hsp_mFill3 _ (okDots_subAll mFill2 hsp_mFill2 _
    (okDots_subAll mFill1 hsp_mFill1 _ (okDots_subAll mBrkt hsp_mBrkt _
      (okDots_subAll mSpeak hsp_mSpeak _ (okDots_subAll mTs2 hsp_mTs2 _
        (okDots_subAll mTs3 hsp_mTs3 _ (okDots_subAll mTsBr hsp_mTsBr _ h)))))))

theorem subAll_length (m : Option Char → List Char → Option Nat) (l : List Char) :
    (subAll m l).length ≤ l.length := genSub_length m l.length none l

theorem step123_length (l : List Char) : (step123 l).length ≤ l.length := by
  unfold step123
  calc (subAll mFill3 _).length
      ≤ (subAll mFill2 _).length := subAll_length _ _
    _ ≤ (subAll mFill1 _).length := subAll_length _ _
    _ ≤ (subAll mBrkt _).length := subAll_length _ _
    _ ≤ (subAll mSpeak _).length := subAll_length _ _
    _ ≤ (subAll mTs2 _).length := subAll_length _ _
    _ ≤ (subAll mTs3 _).length := subAll_length _ _
    _ ≤ (subAll mTsBr l).length := subAll_length _ _
    _ ≤ l.length := subAll_length _ _

theorem splitDot_ne_nil (z : List Char) : splitDot z ≠ [] := by
  cases z with
  | nil => simp [splitDot]
  | cons c r =>
    by_cases hc : c = '.'
    · simp [splitDot, hc]
    · simp only [splitDot, if_neg hc]
      cases splitDot r <;> simp

theorem splitDot_cons_ne (c : Char) (r : List Char) (hc : c ≠ '.') :
    ∃ p ps, splitDot r = p :: ps ∧ splitDot (c :: r) = (c :: p) :: ps := by
  cases hs : splitDot r with
  | nil => exact absurd hs (splitDot_ne_nil r)
  | cons p ps =>
    refine ⟨p, ps, rfl, ?_⟩
    simp [splitDot, hc, hs]

theorem splitDot_dot (r : List Char) : splitDot ('.' :: r) = [] :: splitDot r := rfl

theorem splitDot_no_dot (z : List Char) : ∀ q ∈ splitDot z, '.' ∉ q := by
  induction z with
  | nil =>
    intro q hq
    simp [splitDot] at hq
    simp [hq]
  | cons c r ih =>
    by_cases hc : c = '.'
    · subst hc
      intro q hq
      rw [splitDot_dot] at hq
      rcases List.mem_cons.mp hq with rfl | hq
      · simp
      · exact ih q hq
    · obtain ⟨p, ps, hr, hcr⟩ := splitDot_cons_ne c r hc
      intro q hq
      rw [hcr] at hq
      rcases List.mem_cons.mp hq with rfl | hq
      · intro hd
        rcases List.mem_cons.mp hd with h | h
        · exact hc h.symm
        · exact ih p (by rw [hr]; simp) h
      · exact ih q (by rw [hr]; simp [hq])

theorem splitDot_length (z : List Char) :
    z.length + 1 = ((splitDot z).map List.length).sum + (splitDot z).length := by
  induction z with
  | nil => rfl
  | cons c r ih =>
    by_cases hc : c = '.'
    · subst hc
      rw [splitDot_dot]
      simp only [List.map_cons, List.sum_cons, List.length_cons, List.length_nil]
      omega
    · obtain ⟨p, ps, hr, hcr⟩ := splitDot_cons_ne c r hc
      rw [hcr]
      rw [hr] at ih
      simp only [List.map_cons, List.sum_cons, List.length_cons] at ih ⊢
      omega

theorem splitDot_tail_space (z : List Char) (h : okDots z = true) :
    ∀ q ∈ (splitDot z).tail, ∃ t, q = ' ' :: t := by
  induction z with
  | nil => intro q hq; simp [splitDot] at hq
  | cons c r ih =>
    by_cases hc : c = '.'
    · subst hc
      obtain ⟨t, rfl⟩ := okDots_dot h
      intro q hq
      rw [splitDot_dot, List.tail_cons] at hq
      obtain ⟨p, ps, ht, hst⟩ := splitDot_cons_ne ' ' t (by decide)
      rw [hst] at hq
      rcases List.mem_cons.mp hq with rfl | hq
      · exact ⟨p, rfl⟩
      · exact ih (okDots_tail h) q (by rw [hst]; simpa using hq)
    · obtain ⟨p, ps, hr, hcr⟩ := splitDot_cons_ne c r hc
      intro q hq
      rw [hcr] at hq
      simp only [List.tail_cons] at hq
      exact ih (okDots_tail h) q (by rw [hr]; simpa using hq)

theorem joinDS_length_cons (x : List Char) (xs : List (List Char)) (hne : xs ≠ []) :
    (joinDS (x :: xs)).length = x.length + 2 + (joinDS xs).length := by
  cases xs with
  | nil => exact absurd rfl hne
  | cons y ys =>
    show (x ++ '.' :: ' ' :: joinDS (y :: ys)).length = _
    simp [List.length_append]
    omega

theorem joinDS_okDots (parts : List (List Char))
    (h : ∀ q ∈ parts, '.' ∉ q) : okDots (joinDS parts) = true := by
  induction parts with
  | nil => rfl
  | cons s rest ih =>
    cases rest with
    | nil => exact okDots_of_no_dot (h s (by simp))
    | cons y ys =>
      show okDots (s ++ '.' :: ' ' :: joinDS (y :: ys)) = true
      apply okDots_prepend_no_dot (h s (by simp))
      apply okDots_dot_space
      have := ih (fun q hq => h q (by simp at hq ⊢; tauto))
      cases hj : joinDS (y :: ys) with
      | nil => rfl
      | cons a as =>
        rw [hj] at this
        exact okDots_cons_of this (by decide)

theorem joinDS_ne_nil (parts : List (List Char)) (hne : parts ≠ [])
    (h : ∀ q ∈ parts, q ≠ []) : joinDS parts ≠ [] := by
  cases parts with
  | nil => exact absurd rfl hne
  | cons s rest =>
    cases rest with
    | nil => exact h s (by simp)
    | cons y ys =>
      show s ++ '.' :: ' ' :: joinDS (y :: ys) ≠ []
      simp

theorem joinDS_endsOk (parts : List (List Char))
    (h : ∀ q ∈ parts, q ≠ [] ∧ endsOk q = true) : endsOk (joinDS parts) = true := by
  induction parts with
  | nil => rfl
  | cons s rest ih =>
    cases rest with
    | nil => exact (h s (by simp)).2
    | cons y ys =>
      show endsOk (s ++ '.' :: ' ' :: joinDS (y :: ys)) = true
      rw [endsOk_append_right s (by simp)]
      have hj : joinDS (y :: ys) ≠ [] :=
        joinDS_ne_nil (y :: ys) (by simp) (fun q hq => (h q (by simp at hq ⊢; tauto)).1)
      rw [endsOk_cons (by simp [hj]), endsOk_cons hj]
      exact ih (fun q hq => h q (by simp at hq ⊢; tauto))

theorem dedupKeep_mem (ps : List (List Char)) : ∀ (seen : List (List Char))
    (q : List Char), q ∈ dedupKeep seen ps → (∃ s ∈ ps, q = pyStrip s) ∧ q ≠ [] := by
  induction ps with
  | nil => intro seen q hq; simp [dedupKeep] at hq
  | cons s rest ih =>
    intro seen q hq
    by_cases hc : (toLowerL (pyStrip s) ≠ [] ∧ toLowerL (pyStrip s) ∉ seen ∧
        10 < (toLowerL (pyStrip s)).length)
    · rw [show dedupKeep seen (s :: rest) =
          pyStrip s :: dedupKeep (toLowerL (pyStrip s) :: seen) rest by
        simp only [dedupKeep]; rw [if_pos hc]] at hq
      rcases List.mem_cons.mp hq with rfl | hq
      · refine ⟨⟨s, by simp, rfl⟩, ?_⟩
        intro hnil
        apply hc.1
        simp [toLowerL, hnil]
      · obtain ⟨⟨s', hs', hq'⟩, hne⟩ := ih _ q hq
        exact ⟨⟨s', by simp [hs'], hq'⟩, hne⟩
    · rw [show dedupKeep seen (s :: rest) = dedupKeep seen rest by
        simp only [dedupKeep]; rw [if_neg hc]] at hq
      obtain ⟨⟨s', hs', hq'⟩, hne⟩ := ih _ q hq
      exact ⟨⟨s', by simp [hs'], hq'⟩, hne⟩

theorem dedup_join_le (ps : List (List Char)) : ∀ (seen : List (List Char)),
    (∀ q ∈ ps, ∃ t, q = ' ' :: t) →
    ((dedupKeep seen ps ≠ [] →
        (joinDS (dedupKeep seen ps)).length + 2 ≤
          ((ps.map List.length).sum + ps.length)) ∧
      (joinDS (dedupKeep seen ps)).length ≤ (ps.map List.length).sum + ps.length) := by
  induction ps with
  | nil =>
    intro seen _
    exact ⟨fun h => absurd rfl h, by simp [dedupKeep, joinDS]⟩
  | cons q rest ih =>
    intro seen hsp
    obtain ⟨t, rfl⟩ := hsp q (by simp)
    have hrest : ∀ x ∈ rest, ∃ u, x = ' ' :: u := fun x hx => hsp x (by simp [hx])
    have hstrip : (pyStrip (' ' :: t)).length ≤ t.length := by
      rw [pyStrip_cons_space]
      exact pyStrip_length_le t
    simp only [List.map_cons, List.sum_cons, List.length_cons]
    by_cases hc : (toLowerL (pyStrip (' ' :: t)) ≠ [] ∧
        toLowerL (pyStrip (' ' :: t)) ∉ seen ∧
        10 < (toLowerL (pyStrip (' ' :: t))).length)
    · rw [show dedupKeep seen ((' ' :: t) :: rest) =
          pyStrip (' ' :: t) ::
            dedupKeep (toLowerL (pyStrip (' ' :: t)) :: seen) rest by
        simp only [dedupKeep]; rw [if_pos hc]]
      obtain ⟨ihs, _⟩ := ih (toLowerL (pyStrip (' ' :: t)) :: seen) hrest
      cases hR : dedupKeep (toLowerL (pyStrip (' ' :: t)) :: seen) rest with
      | nil =>
        have hone : (joinDS [pyStrip (' ' :: t)]).length = (pyStrip (' ' :: t)).length := rfl
        rw [hone]
        refine ⟨fun _ => ?_, ?_⟩ <;> omega
      | cons a as =>
        have hlen := joinDS_length_cons (pyStrip (' ' :: t)) (a :: as) (by simp)
        have hs2 := ihs (by rw [hR]; simp)
        rw [hR] at hs2
        rw [hlen]
        refine ⟨fun _ => ?_, ?_⟩ <;> omega
    · rw [show dedupKeep seen ((' ' :: t) :: rest) = dedupKeep seen rest by
        simp only [dedupKeep]; rw [if_neg hc]]
      obtain ⟨ihs, ihw⟩ := ih seen hrest
      refine ⟨fun hne => ?_, ?_⟩
      · have := ihs hne
        omega
      · omega

theorem step4_length_le (z : List Char) (h : okDots z = true) :
    (step4 z).length ≤ z.length := by
  unfold step4
  obtain ⟨p₁, ps, hsplit⟩ : ∃ p ps, splitDot z = p :: ps := by
    cases hs : splitDot z with
    | nil => exact absurd hs (splitDot_ne_nil z)
    | cons p ps => exact ⟨p, ps, rfl⟩
  have hsp : ∀ q ∈ ps, ∃ t, q = ' ' :: t := by
    intro q hq
    exact splitDot_tail_space z h q (by rw [hsplit]; simpa using hq)
  have hzlen : z.length = p₁.length + ((ps.map List.length).sum + ps.length) := by
    have hl := splitDot_length z
    rw [hsplit] at hl
    simp only [List.map_cons, List.sum_cons, List.length_cons] at hl
    omega
  have hstrip : (pyStrip p₁).length ≤ p₁.length := pyStrip_length_le p₁
  rw [hsplit]
  by_cases hc : (toLowerL (pyStrip p₁) ≠ [] ∧
      toLowerL (pyStrip p₁) ∉ ([] : List (List Char)) ∧
      10 < (toLowerL (pyStrip p₁)).length)
  · rw [show dedupKeep [] (p₁ :: ps) =
        pyStrip p₁ :: dedupKeep [toLowerL (pyStrip p₁)] ps by
      simp only [dedupKeep]; rw [if_pos hc]]
    obtain ⟨ihs, _⟩ := dedup_join_le ps [toLowerL (pyStrip p₁)] hsp
    cases hR : dedupKeep [toLowerL (pyStrip p₁)] ps with
    | nil =>
      have hone : (joinDS [pyStrip p₁]).length = (pyStrip p₁).length := rfl
      rw [hone]
      omega
    | cons a as =>
      have hlen := joinDS_length_cons (pyStrip p₁) (a :: as) (by simp)
      have hs2 := ihs (by rw [hR]; simp)
      rw [hR] at hs2
      rw [hlen]
      omega
  · rw [show dedupKeep [] (p₁ :: ps) = dedupKeep [] ps by
      simp only [dedupKeep]; rw [if_neg hc]]
    obtain ⟨_, ihw⟩ := dedup_join_le ps [] hsp
    omega

theorem collapseRun_nil (p : Char → Bool) (rep : Char) (fuel : Nat) :
    collapseRun p rep fuel [] = [] := by
  cases fuel <;> rfl

theorem collapseRun_ne_nil (p : Char → Bool) (rep : Char) (fuel : Nat)
    (l : List Char) (h : l ≠ []) : collapseRun p rep fuel l ≠ [] := by
  cases fuel with
  | zero => exact h
  | succ fuel =>
    cases l with
    | nil => exact absurd rfl h
    | cons c r =>
      by_cases hp : p c = true
      · simp [collapseRun, hp]
      · simp [collapseRun, hp]

theorem collapseRun_length (p : Char → Bool) (rep : Char) :
    ∀ (fuel : Nat) (l : List Char), (collapseRun p rep fuel l).length ≤ l.length := by
  intro fuel
  induction fuel with
  | zero => intro l; exact Nat.le_refl _
  | succ fuel ih =>
    intro l
    cases l with
    | nil => exact Nat.le_refl _
    | cons c r =>
      by_cases hp : p c = true
      · simp only [collapseRun, if_pos hp, List.length_cons]
        exact Nat.succ_le_succ (Nat.le_trans (ih _) (List.dropWhile_sublist p).length_le)
      · simp only [collapseRun, if_neg hp, List.length_cons]
        exact Nat.succ_le_succ (ih _)

theorem collapseRun_space_head (p : Char → Bool) (rep : Char)
    (h : rep = ' ' ∨ p ' ' = false) (fuel : Nat) (t : List Char) :
    ∃ z, collapseRun p rep fuel (' ' :: t) = ' ' :: z := by
  cases fuel with
  | zero => exact ⟨t, rfl⟩
  | succ fuel =>
    by_cases hp : p ' ' = true
    · rcases h with h | h
      · subst h
        refine ⟨collapseRun p ' ' fuel (t.dropWhile p), ?_⟩
        simp only [collapseRun, if_pos hp]
      · rw [hp] at h
        exact Bool.noConfusion h
    · refine ⟨collapseRun p rep fuel t, ?_⟩
      simp only [collapseRun, if_neg hp]

theorem okDots_collapse_generic (p : Char → Bool) (rep : Char)
    (hsp : rep = ' ' ∨ p ' ' = false) (_hpd : p '.' = false) (hrep : rep ≠ '.') :
    ∀ (fuel : Nat) (l : List Char), okDots l = true →
      okDots (collapseRun p rep fuel l) = true := by
  intro fuel
  induction fuel with
  | zero => intro l h; exact h
  | succ fuel ih =>
    intro l h
    cases l with
    | nil => exact rfl
    | cons c r =>
      by_cases hp : p c = true
      · simp only [collapseRun, if_pos hp]
        exact okDots_cons_of (ih _ (okDots_dropWhile p (okDots_tail h))) hrep
      · simp only [collapseRun, if_neg hp]
        by_cases hc : c = '.'
        · subst hc
          obtain ⟨t, rfl⟩ := okDots_dot h
          obtain ⟨z, hz⟩ := collapseRun_space_head p rep hsp fuel t
          rw [hz]
          have hX : okDots (' ' :: z) = true := by
            rw [← hz]
            exact ih _ (okDots_tail h)
          exact okDots_dot_space hX
        · exact okDots_cons_of (ih _ (okDots_tail h)) hc

theorem okDots_collapseDots :
    ∀ (fuel : Nat) (l : List Char), okDots l = true →
      okDots (collapseRun (fun c => c == '.') '.' fuel l) = true := by
  intro fuel
  induction fuel with
  | zero => intro l h; exact h
  | succ fuel ih =>
    intro l h
    cases l with
    | nil => exact rfl
    | cons c r =>
      by_cases hc : c = '.'
      · subst hc
        obtain ⟨t, rfl⟩ := okDots_dot h
        simp only [collapseRun, if_pos (by decide : (('.' : Char) == '.') = true)]
        rw [List.dropWhile_cons_of_neg (by decide)]
        obtain ⟨z, hz⟩ :=
          collapseRun_space_head (fun c => c == '.') '.' (Or.inr (by decide)) fuel t
        rw [hz]
        have hX : okDots (' ' :: z) = true := by
          rw [← hz]
          exact ih _ (okDots_tail h)
        exact okDots_dot_space hX
      · simp only [collapseRun, if_neg (by simpa using hc : ¬(c == '.') = true)]
        exact okDots_cons_of (ih _ (okDots_tail h)) hc

theorem endsOk_collapse_nonws (p : Char → Bool) (rep : Char)
    (hrep : isWs rep = false) :
    ∀ (fuel : Nat) (l : List Char), endsOk l = true →
      endsOk (collapseRun p rep fuel l) = true := by
  intro fuel
  induction fuel with
  | zero => intro l h; exact h
  | succ fuel ih =>
    intro l h
    cases l with
    | nil => exact rfl
    | cons c r =>
      by_cases hp : p c = true
      · simp only [collapseRun, if_pos hp]
        by_cases hrn : r = []
        · subst hrn
          rw [List.dropWhile_nil, collapseRun_nil]
          simp [endsOk, hrep]
        · rw [endsOk_cons hrn] at h
          have hX := ih _ (endsOk_dropWhile p h)
          cases hXz : collapseRun p rep fuel (r.dropWhile p) with
          | nil => simp [endsOk, hrep]
          | cons a as =>
            rw [hXz] at hX
            rw [endsOk_cons (by simp)]
            exact hX
      · simp only [collapseRun, if_neg hp]
        by_cases hrn : r = []
        · subst hrn
          rw [collapseRun_nil]
          exact h
        · rw [endsOk_cons hrn] at h
          have hne : collapseRun p rep fuel r ≠ [] :=
            collapseRun_ne_nil p rep fuel r hrn
          rw [endsOk_cons hne]
          exact ih r h

theorem endsOk_collapseWs :
    ∀ (fuel : Nat) (l : List Char), endsOk l = true →
      endsOk (collapseRun isWs ' ' fuel l) = true := by
  intro fuel
  induction fuel with
  | zero => intro l h; exact h
  | succ fuel ih =>
    intro l h
    cases l with
    | nil => exact rfl
    | cons c r =>
      by_cases hp : isWs c = true
      · simp only [collapseRun, if_pos hp]
        cases hd : r.dropWhile isWs with
        | nil =>
          have hall : ∀ x ∈ r, isWs x = true := List.dropWhile_eq_nil_iff.mp hd
          have hfalse : endsOk (c :: r) = false :=
            endsOk_false_of_all_ws (by simp)
              (by intro x hx
                  rcases List.mem_cons.mp hx with rfl | hx
                  · exact hp
                  · exact hall x hx)
          rw [hfalse] at h
          exact Bool.noConfusion h
        | cons d t =>
          have hrn : r ≠ [] := by
            intro hr
            rw [hr] at hd
            exact List.noConfusion hd
          rw [endsOk_cons hrn] at h
          have hX := ih _ (endsOk_dropWhile isWs h)
          have hne : collapseRun isWs ' ' fuel (d :: t) ≠ [] :=
            collapseRun_ne_nil _ _ _ _ (by simp)
          rw [hd] at hX
          rw [endsOk_cons hne]
          exact hX
      · simp only [collapseRun, if_neg hp]
        by_cases hrn : r = []
        · subst hrn
          rw [collapseRun_nil]
          exact h
        · rw [endsOk_cons hrn] at h
          have hne : collapseRun isWs ' ' fuel r ≠ [] :=
            collapseRun_ne_nil _ _ _ r hrn
          rw [endsOk_cons hne]
          exact ih r h

theorem okDots_step5 (l : List Char) (h : okDots l = true) :
    okDots (step5 l) = true := by
  unfold step5 collapseAll
  apply okDots_collapse_generic (fun c => c == ',') ',' (Or.inr (by decide))
    (by decide) (by decide)
  apply okDots_collapseDots
  exact okDots_collapse_generic isWs ' ' (Or.inl rfl) (by decide) (by decide) _ _ h

theorem endsOk_step5 (l : List Char) (h : endsOk l = true) :
    endsOk (step5 l) = true := by
  unfold step5 collapseAll
  apply endsOk_collapse_nonws (fun c => c == ',') ',' (by decide)
  apply endsOk_collapse_nonws (fun c => c == '.') '.' (by decide)
  exact endsOk_collapseWs _ _ h

theorem step5_length_le (l : List Char) : (step5 l).length ≤ l.length := by
  unfold step5 collapseAll
  calc (collapseRun (fun c => c == ',') ',' _ _).length
      ≤ (collapseRun (fun c => c == '.') '.' _ _).length := collapseRun_length _ _ _ _
    _ ≤ (collapseRun isWs ' ' _ _).length := collapseRun_length _ _ _ _
    _ ≤ l.length := collapseRun_length _ _ _ _

theorem okDots_step4_univ (z : List Char) : okDots (step4 z) = true := by
  unfold step4
  apply joinDS_okDots
  intro q hq
  obtain ⟨⟨s, hs, rfl⟩, _⟩ := dedupKeep_mem (splitDot z) [] q hq
  intro hd
  exact splitDot_no_dot z s hs (pyStrip_mem hd)

theorem endsOk_step4_univ (z : List Char) : endsOk (step4 z) = true := by
  unfold step4
  apply joinDS_endsOk
  intro q hq
  obtain ⟨⟨s, _, rfl⟩, hne⟩ := dedupKeep_mem (splitDot z) [] q hq
  exact ⟨hne, endsOk_pyStrip s⟩

theorem okDots_cleanPure (l : List Char) : okDots (cleanPure l) = true := by
  unfold cleanPure cleanSteps15
  exact pyStrip_okDots (okDots_step5 _ (okDots_step4_univ _))
    (endsOk_step5 _ (endsOk_step4_univ _))

theorem cleanPure_twice_le (l : List Char) :
    (cleanPure (cleanPure l)).length ≤ (cleanPure l).length := by
  have hok : okDots (step123 (cleanPure l)) = true :=
    okDots_step123 _ (okDots_cleanPure l)
  calc (cleanPure (cleanPure l)).length
      ≤ (cleanSteps15 (cleanPure l)).length := pyStrip_length_le _
    _ = (step5 (step4 (step123 (cleanPure l)))).length := rfl
    _ ≤ (step4 (step123 (cleanPure l))).length := step5_length_le _
    _ ≤ (step123 (cleanPure l)).length := step4_length_le _ hok
    _ ≤ (cleanPure l).length := step123_length _

/-- C7: applying the Text Normalizer twice never increases output length.
The optional external spaCy pass is modelled as skipped (its behavior
belongs to a third-party black box); for the deterministic normalizer,
whenever one pass maps `s` to `t` and a second pass maps `t` to `u`, the
length of `u` is at most the length of `t`. -/
theorem clean_transcript_twice_length (s t u : String)
    (h1 : clean_transcript (fun _ => none) s = some t)
    (h2 : clean_transcript (fun _ => none) t = some u) :
    u.length ≤ t.length := by
  by_cases hs : s = ""
  · subst hs
    rw [show clean_transcript (fun _ => none) "" = none from rfl] at h1
    exact Option.noConfusion h1
  · rw [clean_transcript_spacy_fallback s hs] at h1
    have ht2 : t = ⟨cleanPure s.data⟩ := (Option.some.inj h1).symm
    by_cases hT : t = ""
    · rw [hT, show clean_transcript (fun _ => none) "" = none from rfl] at h2
      exact Option.noConfusion h2
    · rw [clean_transcript_spacy_fallback t hT] at h2
      have hu2 : u = ⟨cleanPure t.data⟩ := (Option.some.inj h2).symm
      have h3 : u.length = (cleanPure t.data).length := by rw [hu2]; rfl
      have h4 : t.length = (cleanPure s.data).length := by rw [ht2]; rfl
      have hdata : t.data = cleanPure s.data := by rw [ht2]
      rw [h3, h4, hdata]
      exact cleanPure_twice_le s.data

/-- Closed witness for C7 at a concrete transcript (a fixed point of the
normalizer). -/
theorem clean_transcript_twice_length_witness :
    clean_transcript (fun _ => none)
        "an example sentence here. another example sentence" =
      some "an example sentence here. another example sentence" ∧
    clean_transcript (fun _ => none)
        "an example sentence here. another example sentence" =
      some "an example sentence here. another example sentence" ∧
    ("an example sentence here. another example sentence" : String).length ≤
      ("an example sentence here. another example sentence" : String).length :=
  ⟨rfl, rfl,
   clean_transcript_twice_length
     "an example sentence here. another example sentence"
     "an example sentence here. another example sentence"
     "an example sentence here. another example sentence" rfl rfl⟩

/-- Closed witness for C9: an unparsable string and the form `PT2H7S`. -/
theorem parse_iso_duration_spec_witness :
    _parse_iso_duration "unparsable" = 0 ∧
    _parse_iso_duration
        ⟨'P' :: 'T' :: (optComp (some ['2']) 'H' ++ optComp none 'M' ++
          optComp (some ['7']) 'S')⟩ = 7207 := by
  constructor
  · exact parse_iso_duration_spec.2.2.2.1 "unparsable" (by decide)
  · have h := parse_iso_duration_spec.2.2.2.2 (some ['2']) none (some ['7'])
      (fun ds hds => by cases hds; exact ⟨by decide, by decide⟩)
      (fun ds hds => nomatch hds)
      (fun ds hds => by cases hds; exact ⟨by decide, by decide⟩)
    rw [h]
    rfl

end MindTube
